import Mathlib

/-!
Verification of the deeplodocus training-orchestration core.

Shallow embedding of:
  * `deeplodocus/callbacks/saver.py`        (Saver)
  * `deeplodocus/core/inference/trainer.py` (Trainer epoch loop, continue prompt)
  * `deeplodocus/core/inference/generic_inferer.py` (minibatch count)
  * `deeplodocus/brain/brain.py`            (config dtype coercion)
  * `deeplodocus/utils/namespace.py`        (YAML save / load round trip)

Python machine-level details are modelled explicitly: functions that fall off
the end return `none` (Python `None`), exceptions are `Except` values, and the
interactive prompts consume an explicit list of user answers (`none` result =
the prompt is still looping, waiting for further input).
-/

namespace Deeplodocus

/-! ## Flags (`deeplodocus/utils/flags.py`, integer constants modelled as enums) -/

/-- The comparison-direction flags `DEEP_COMPARE_SMALLER` / `DEEP_COMPARE_BIGGER`;
`invalid` stands for every other integer value (the `else` branch of
`Saver.is_saving_required`, a fatal configuration error). -/
inductive Compare where
  | smaller
  | bigger
  | invalid
deriving DecidableEq, Repr

/-- `DEEP_SAVE_CONDITION_END_EPOCH` / `DEEP_SAVE_CONDITION_AUTO` /
`DEEP_SAVE_CONDITION_END_TRAINING`. -/
inductive SaveCondition where
  | endEpoch
  | auto
  | endTraining
deriving DecidableEq, Repr

/-- `DEEP_SAVE_NET_FORMAT_PYTORCH` / `DEEP_SAVE_NET_FORMAT_ONNX`. -/
inductive SaveMethod where
  | pytorch
  | onnx
deriving DecidableEq, Repr

/-- `OverWatchMetric` (`deeplodocus/core/metrics/over_watch_metric.py`):
name, comparison direction and current value.  The Python value is a float;
its role in the saver is purely order-theoretic, modelled over `ℚ`. -/
structure OverWatchMetric where
  name : String
  condition : Compare
  value : ℚ
deriving DecidableEq

/-! ## Saver (`deeplodocus/callbacks/saver.py`) -/

/-- Observable outcome of one `Saver.is_saving_required` call:
the new `self.best_overwatch_metric`, the `saving_required` boolean emitted on
the bus via `Thalamus().add_signal` (`none` when the fatal `else` branch runs
and the process exits before the signal line), and the Python return value. -/
structure SavingCheck where
  best : Option OverWatchMetric
  emitted : Option Bool
  ret : Option Bool
deriving DecidableEq

/-- `Saver.is_saving_required` (saver.py lines 119-173) as a state transition.
`best0` is `self.best_overwatch_metric` before the call.  Mirrors the source:
`save = False`; if the stored best is `None` it is first set to the current
metric (`save` stays `False`) and the comparison below then runs against that
freshly stored copy (the `if` at line 149 is not an `elif`); under
`DEEP_COMPARE_SMALLER` a strictly smaller value updates the best and sets
`save = True`, otherwise `save = False`; symmetric for `DEEP_COMPARE_BIGGER`;
any other condition is fatal.  The function body contains no `return`
statement, so the Python return value is always `None` (`ret = none`). -/
def is_saving_required (best0 : Option OverWatchMetric) (current : OverWatchMetric) :
    SavingCheck :=
  let b := best0.getD current
  match current.condition with
  | Compare.smaller =>
      if b.value > current.value then ⟨some current, some true, none⟩
      else ⟨some b, some false, none⟩
  | Compare.bigger =>
      if b.value < current.value then ⟨some current, some true, none⟩
      else ⟨some b, some false, none⟩
  | Compare.invalid => ⟨some b, none, none⟩

/-- Outcome of one `Saver.on_overwatch_metric_computed` call: the new stored
best metric and whether `save_model` was invoked. -/
structure MetricStep where
  best : Option OverWatchMetric
  saved : Bool
deriving DecidableEq

/-- `Saver.on_overwatch_metric_computed` (saver.py lines 60-90).
Under `DEEP_SAVE_CONDITION_END_EPOCH` it saves unconditionally; under
`DEEP_SAVE_CONDITION_AUTO` it saves only when
`is_saving_required(...) is True` — compared against the actual Python
return value, not the emitted signal. -/
def on_overwatch_metric_computed (cond : SaveCondition) (best : Option OverWatchMetric)
    (current : OverWatchMetric) : MetricStep :=
  match cond with
  | SaveCondition.endEpoch => ⟨best, true⟩
  | SaveCondition.auto =>
      let r := is_saving_required best current
      ⟨r.best, r.ret == some true⟩
  | SaveCondition.endTraining => ⟨best, false⟩

/-- Folding a sequence of observations through `is_saving_required`,
recording the stored best metric after each call. -/
def saver_states (ms : List OverWatchMetric) : List (Option OverWatchMetric) :=
  (ms.scanl (fun b m => (is_saving_required b m).best) none).tail

/-- The value of the stored best metric after each observation. -/
def best_values (ms : List OverWatchMetric) : List ℚ :=
  (saver_states ms).filterMap (Option.map OverWatchMetric.value)

/-- The `saving_required` flag emitted after each observation. -/
def emitted_flags (ms : List OverWatchMetric) : List (Option Bool) :=
  ((ms.scanl (fun b m => (is_saving_required b m).best) none).zip ms).map
    (fun p => (is_saving_required p.1 p.2).emitted)

/-- `Saver.__init__` (saver.py lines 39-42): `.onnx` for the ONNX format,
`.model` otherwise. -/
def extension (m : SaveMethod) : String :=
  if m == SaveMethod.onnx then ".onnx" else ".model"

/-- `Saver.save_model` (saver.py line 202):
`filepath = self.directory + self.name + self.extension`. -/
def save_filepath (directory name : String) (m : SaveMethod) : String :=
  directory ++ name ++ extension m

/-! ## Python string primitives

Executable models of `str.lower()` and `str.strip()` (the core library's
`String.toLower`/`String.trim` are not kernel-reducible). -/

/-- `str.lower()` on one ASCII character. -/
def lower_char (c : Char) : Char :=
  if 'A' ≤ c ∧ c ≤ 'Z' then Char.ofNat (c.toNat + 32) else c

/-- `str.lower()`. -/
def lower (s : String) : String := ⟨s.toList.map lower_char⟩

/-- `str.strip()`: drop leading and trailing whitespace. -/
def strip_chars (s : String) : List Char :=
  ((s.toList.dropWhile Char.isWhitespace).reverse.dropWhile Char.isWhitespace).reverse

/-! ## Interactive prompt loops

Each loop reads answers from an explicit input script.  `prompt_until accept
answers` models `while not accept(response): response = input()`: it returns
the first accepted answer together with the unread script, or `none` when the
script is exhausted (the loop is still re-prompting). -/

def prompt_until (accept : String → Bool) : List String → Option (String × List String)
  | [] => none
  | a :: rest => if accept a then some (a, rest) else prompt_until accept rest

/-! ## `Saver.__handle_error_saving` (saver.py lines 222-282)

In Python the loop guard `response.lower() != ("y" or "n")` compares against
`("y" or "n")`, which evaluates to `"y"`; likewise
`response.lower() != ("pytorch" or "onnx")` compares against `"pytorch"`.
So every yes/no loop exits only on an answer lowercasing to `"y"`, and the
format loop only on `"pytorch"`.  (The method is also defined with parameters
`(self, name, model)` but invoked as `self.__handle_error_saving(model)` /
`self.__handle_error_saving()`, a `TypeError` at runtime; the loop structure
below models the body as written.) -/

/-- Exit test of the `(y/n)` loops: in the source they loop
`while response.lower() != ("y" or "n")`, i.e. until the answer lowercases
to `"y"`. -/
def yes_no_accepts (r : String) : Bool := lower r == "y"

/-- Exit test of the format loop: `while response.lower() != ("pytorch" or "onnx")`,
i.e. until the answer lowercases to `"pytorch"`. -/
def format_accepts (r : String) : Bool := lower r == "pytorch"

/-- Terminal decision reached by `__handle_error_saving`. -/
inductive RecoveryAction where
  | retry
  | switchFormat (m : SaveMethod)
  | exitProgram
  | recurse
deriving DecidableEq, Repr

/-- `Saver.__handle_error_saving` over an answer script: `none` means the
current prompt loop never received an accepted answer and is still
re-prompting. -/
def handle_error_saving (answers : List String) :
    Option (RecoveryAction × List String) :=
  match prompt_until yes_no_accepts answers with
  | none => none
  | some (r1, rest1) =>
    if lower r1 == "y" then some (RecoveryAction.retry, rest1)
    else
      match prompt_until yes_no_accepts rest1 with
      | none => none
      | some (r2, rest2) =>
        if lower r2 == "n" then
          match prompt_until yes_no_accepts rest2 with
          | none => none
          | some (r3, rest3) =>
            if lower r3 == "n" then some (RecoveryAction.recurse, rest3)
            else some (RecoveryAction.exitProgram, rest3)
        else
          match prompt_until format_accepts rest2 with
          | none => none
          | some (r4, rest4) =>
            some (RecoveryAction.switchFormat
              (if lower r4 == "pytorch" then SaveMethod.pytorch else SaveMethod.onnx),
              rest4)

/-! ## `GenericInferer.compute_num_minibatches`
(`deeplodocus/core/inference/generic_inferer.py` lines 101-130) -/

/-- `compute_num_minibatches(length_dataset, batch_size)`. -/
def compute_num_minibatches (length_dataset batch_size : ℕ) : ℕ :=
  if length_dataset % batch_size == 0 then length_dataset / batch_size
  else length_dataset / batch_size + 1

/-! ## Trainer (`deeplodocus/core/inference/trainer.py`) -/

/-- The epoch indices iterated by `Trainer.__train` (line 153):
`for epoch in range(self.initial_epoch + 1, self.num_epochs + 1)`. -/
def train_epochs (initial_epoch num_epochs : ℕ) : List ℕ :=
  List.range' (initial_epoch + 1) (num_epochs - initial_epoch)

/-- Number of `on_epoch_end` callback invocations of one `__train` run
(one per epoch iteration, trainer.py line 205). -/
def num_epoch_end (initial_epoch num_epochs : ℕ) : ℕ :=
  (train_epochs initial_epoch num_epochs).length

/-- Number of `on_batch_end` callback invocations of one `__train` run
(one per minibatch per epoch iteration, trainer.py line 187). -/
def num_batch_end (initial_epoch num_epochs length_dataset batch_size : ℕ) : ℕ :=
  (train_epochs initial_epoch num_epochs).length *
    compute_num_minibatches length_dataset batch_size

/-- Modelled from the spec: the `Callback` aggregator
(`deeplodocus/callbacks/callback.py`, not under `src/`) forwards each
`epoch_end` to `Saver.on_overwatch_metric_computed`, so under the
`EVERY_EPOCH` policy each epoch end produces one checkpoint write.  The fold
threads the saver's stored best metric through the per-epoch metrics `ms`
(one entry per epoch iteration) and counts the `save_model` invocations. -/
def epoch_end_saves (cond : SaveCondition) (ms : List OverWatchMetric) : ℕ :=
  (ms.foldl
    (fun (acc : Option OverWatchMetric × ℕ) m =>
      let r := on_overwatch_metric_computed cond acc.1 m
      (r.best, acc.2 + if r.saved then 1 else 0))
    (none, 0)).2

/-- Trainer run state relevant to `__continue_training`; `model_state` and
`opt_state` are opaque tokens standing for the model parameters and optimizer
state (the prompt code never touches them). -/
structure TrainerState where
  initial_epoch : ℤ
  num_epochs : ℤ
  model_state : ℕ
  opt_state : ℕ
deriving DecidableEq, Repr

/-- Python `int(s)`: optional surrounding whitespace, optional sign, at least
one decimal digit; anything else raises `ValueError` (`none`). -/
def pyInt? (s : String) : Option ℤ :=
  let cs := strip_chars s
  match cs with
  | '-' :: ds =>
      if ds ≠ [] ∧ ds.all Char.isDigit then
        some (-(ds.foldl (fun acc c => 10 * acc + (c.toNat - '0'.toNat)) 0 : ℕ))
      else none
  | '+' :: ds =>
      if ds ≠ [] ∧ ds.all Char.isDigit then
        some ((ds.foldl (fun acc c => 10 * acc + (c.toNat - '0'.toNat)) 0 : ℕ))
      else none
  | ds =>
      if ds ≠ [] ∧ ds.all Char.isDigit then
        some ((ds.foldl (fun acc c => 10 * acc + (c.toNat - '0'.toNat)) 0 : ℕ))
      else none

/-- The `while True: ... int(epochs) ... break / except ValueError` loop of
`Trainer.__continue_training` (trainer.py lines 285-291): consume answers
until one parses as an integer; `none` = script exhausted, still
re-prompting. -/
def prompt_int : List String → Option (ℤ × List String)
  | [] => none
  | a :: rest =>
    match pyInt? a with
    | some n => some (n, rest)
    | none => prompt_int rest

/-- Result of `Trainer.__continue_training`. -/
structure ContinueResult where
  state : TrainerState
  resumed : Bool
  remaining : List String
deriving DecidableEq, Repr

/-- `Trainer.__continue_training` (trainer.py lines 257-298) over an answer
script.  First loop: `while continue_training.lower() not in ["y","n"]`.
On `"y"`: the integer prompt loop; then only `if epochs > 0` does the code set
`initial_epoch = num_epochs + 1`, `num_epochs += epochs` and resume
(`fit(first_training=False)`); an integer `≤ 0` simply falls through, ending
the prompt with nothing changed.  On `"n"`: `pass`. -/
def continue_training (answers : List String) (s : TrainerState) :
    Option ContinueResult :=
  match prompt_until (fun r => lower r == "y" || lower r == "n") answers with
  | none => none
  | some (r, rest) =>
    if lower r == "y" then
      match prompt_int rest with
      | none => none
      | some (epochs, rest2) =>
        if epochs > 0 then
          some ⟨⟨s.num_epochs + 1, s.num_epochs + epochs, s.model_state, s.opt_state⟩,
                true, rest2⟩
        else some ⟨s, false, rest2⟩
    else some ⟨s, false, rest⟩

/-! ## Brain config coercion (`deeplodocus/brain/brain.py` lines 329-424) -/

/-- Python values appearing in the config-coercion claim. -/
inductive PyVal where
  | str (s : String)
  | int (n : ℤ)
  | pyNone
deriving DecidableEq, Repr

/-- Python exceptions relevant to `Brain.__convert`. -/
inductive PyErr where
  | valueError
  | typeError
  | nameError
deriving DecidableEq, Repr

/-- The Python call `int(v)`: an all-digit (optionally signed) string parses,
a non-numeric string raises `ValueError`, an `int` is returned unchanged and
`None` raises `TypeError`. -/
def py_int_call (v : PyVal) : Except PyErr ℤ :=
  match v with
  | PyVal.int n => Except.ok n
  | PyVal.str s =>
      match pyInt? s with
      | some n => Except.ok n
      | none => Except.error PyErr.valueError
  | PyVal.pyNone => Except.error PyErr.typeError

/-- `Brain.__convert(value, d_type)` for `d_type = int` (brain.py lines
391-424).  The guard `isinstance(dtype, int) or isinstance(dtype, float)`
refers to a name `dtype` that the method never binds (the parameter is
`d_type`); the model charitably takes the `else` branch that the guard was
meant to select for non-eval types, `try: return d_type(value) except
TypeError: return None` — note that only `TypeError` is caught, so the
`ValueError` raised by `int("x")` propagates. -/
def convert_int (v : PyVal) : Except PyErr (Option ℤ) :=
  match py_int_call v with
  | Except.ok n => Except.ok (some n)
  | Except.error PyErr.typeError => Except.ok none
  | Except.error e => Except.error e

/-- The list branch of `Brain.__convert_dtype` (brain.py lines 363-375) for
element type `int`: convert the items one by one; a conversion returning
`None` discards everything and returns the default; an uncaught exception
from `__convert` propagates. -/
def convert_dtype_int_list (value : List PyVal) (dflt : List ℤ) :
    Except PyErr (List ℤ) :=
  go value []
where
  /-- The `for item in value` loop accumulating `new_values`. -/
  go : List PyVal → List ℤ → Except PyErr (List ℤ)
  | [], acc => Except.ok acc.reverse
  | item :: rest, acc =>
    match convert_int item with
    | Except.ok (some n) => go rest (n :: acc)
    | Except.ok none => Except.ok dflt
    | Except.error e => Except.error e

/-! ## Helper lemmas -/

/-- Recursive form of the saver state sequence, for induction. -/
def run_states (b0 : Option OverWatchMetric) : List OverWatchMetric → List (Option OverWatchMetric)
  | [] => []
  | m :: ms =>
    let b1 := (is_saving_required b0 m).best
    b1 :: run_states b1 ms

lemma filterMap_some_val (bs : List OverWatchMetric) :
    List.filterMap (fun x => some x.value) bs = bs.map OverWatchMetric.value := by
  induction bs with
  | nil => rfl
  | cons b bs ih => simp [List.filterMap_cons, ih]

lemma scanl_cons_tail {α β : Type} (f : β → α → β) (b : β) (l : List α) :
    List.scanl f b l = b :: (List.scanl f b l).tail := by
  cases l with
  | nil => rfl
  | cons a l => rw [List.scanl_cons]; rfl

lemma scanl_tail_eq_run_states (b0 : Option OverWatchMetric) (ms : List OverWatchMetric) :
    ((ms.scanl (fun b m => (is_saving_required b m).best) b0).tail) = run_states b0 ms := by
  induction ms generalizing b0 with
  | nil => rfl
  | cons m ms ih =>
    rw [List.scanl_cons]
    show List.scanl _ ((is_saving_required b0 m).best) ms = run_states b0 (m :: ms)
    rw [scanl_cons_tail, ih]
    rfl

lemma saver_states_eq_run (ms : List OverWatchMetric) :
    saver_states ms = run_states none ms :=
  scanl_tail_eq_run_states none ms

lemma is_saving_required_some_smaller (b m : OverWatchMetric)
    (h : m.condition = Compare.smaller) :
    (is_saving_required (some b) m).best =
      if b.value > m.value then some m else some b := by
  simp only [is_saving_required, Option.getD_some, h]
  split <;> rfl

lemma is_saving_required_some_bigger (b m : OverWatchMetric)
    (h : m.condition = Compare.bigger) :
    (is_saving_required (some b) m).best =
      if b.value < m.value then some m else some b := by
  simp only [is_saving_required, Option.getD_some, h]
  split <;> rfl

lemma run_states_smaller (ms : List OverWatchMetric) (b : OverWatchMetric)
    (hc : ∀ m ∈ ms, m.condition = Compare.smaller) :
    ∃ bs : List OverWatchMetric, run_states (some b) ms = bs.map some ∧
      bs.length = ms.length ∧
      List.Chain' (fun x y : OverWatchMetric => y.value ≤ x.value) (b :: bs) := by
  induction ms generalizing b with
  | nil => exact ⟨[], rfl, rfl, List.chain'_singleton b⟩
  | cons m ms ih =>
    have hm := hc m (List.mem_cons_self m ms)
    have hrest : ∀ m' ∈ ms, m'.condition = Compare.smaller :=
      fun m' h' => hc m' (List.mem_cons_of_mem m h')
    by_cases hlt : b.value > m.value
    · obtain ⟨bs, hbs, hlen, hchain⟩ := ih m hrest
      refine ⟨m :: bs, ?_, by simp [hlen], ?_⟩
      · simp [run_states, is_saving_required_some_smaller b m hm, hlt, hbs]
      · exact List.Chain'.cons (le_of_lt hlt) hchain
    · obtain ⟨bs, hbs, hlen, hchain⟩ := ih b hrest
      refine ⟨b :: bs, ?_, by simp [hlen], ?_⟩
      · simp [run_states, is_saving_required_some_smaller b m hm, hlt, hbs]
      · exact List.Chain'.cons le_rfl hchain

lemma run_states_bigger (ms : List OverWatchMetric) (b : OverWatchMetric)
    (hc : ∀ m ∈ ms, m.condition = Compare.bigger) :
    ∃ bs : List OverWatchMetric, run_states (some b) ms = bs.map some ∧
      bs.length = ms.length ∧
      List.Chain' (fun x y : OverWatchMetric => x.value ≤ y.value) (b :: bs) := by
  induction ms generalizing b with
  | nil => exact ⟨[], rfl, rfl, List.chain'_singleton b⟩
  | cons m ms ih =>
    have hm := hc m (List.mem_cons_self m ms)
    have hrest : ∀ m' ∈ ms, m'.condition = Compare.bigger :=
      fun m' h' => hc m' (List.mem_cons_of_mem m h')
    by_cases hlt : b.value < m.value
    · obtain ⟨bs, hbs, hlen, hchain⟩ := ih m hrest
      refine ⟨m :: bs, ?_, by simp [hlen], ?_⟩
      · simp [run_states, is_saving_required_some_bigger b m hm, hlt, hbs]
      · exact List.Chain'.cons (le_of_lt hlt) hchain
    · obtain ⟨bs, hbs, hlen, hchain⟩ := ih b hrest
      refine ⟨b :: bs, ?_, by simp [hlen], ?_⟩
      · simp [run_states, is_saving_required_some_bigger b m hm, hlt, hbs]
      · exact List.Chain'.cons le_rfl hchain

/-- First observation: the stored best becomes the current metric and the
comparison (run against the freshly stored copy) leaves it unchanged. -/
lemma is_saving_required_none (m : OverWatchMetric) :
    (is_saving_required none m).best = some m := by
  simp only [is_saving_required, Option.getD_none]
  cases h : m.condition <;> simp

lemma is_saving_required_best_isSome (b : OverWatchMetric) (m : OverWatchMetric) :
    ∃ b', (is_saving_required (some b) m).best = some b' := by
  simp only [is_saving_required, Option.getD_some]
  cases m.condition <;> dsimp <;> first
    | exact ⟨b, rfl⟩
    | (split
       · exact ⟨m, rfl⟩
       · exact ⟨b, rfl⟩)

lemma run_states_all_some (ms : List OverWatchMetric) :
    ∀ b : OverWatchMetric, ∃ bs : List OverWatchMetric,
      run_states (some b) ms = bs.map some ∧ bs.length = ms.length := by
  induction ms with
  | nil => exact fun b => ⟨[], rfl, rfl⟩
  | cons m ms ih =>
    intro b
    obtain ⟨b', hb'⟩ := is_saving_required_best_isSome b m
    obtain ⟨bs, hbs, hlen⟩ := ih b'
    exact ⟨b' :: bs, by simp [run_states, hb', hbs], by simp [hlen]⟩

lemma prompt_until_accepts (accept : String → Bool) :
    ∀ (answers : List String) (a : String) (rest : List String),
      prompt_until accept answers = some (a, rest) → accept a = true := by
  intro answers
  induction answers with
  | nil => intro a rest h; simp [prompt_until] at h
  | cons x xs ih =>
    intro a rest h
    by_cases hx : accept x
    · simp [prompt_until, hx] at h
      obtain ⟨h1, _⟩ := h
      rw [← h1]; exact hx
    · simp [prompt_until, hx] at h
      exact ih a rest h

/-- The fold inside `epoch_end_saves` under `END_EPOCH` counts every epoch. -/
lemma epoch_end_saves_go (ms : List OverWatchMetric) :
    ∀ (b : Option OverWatchMetric) (k : ℕ),
      (ms.foldl
        (fun (acc : Option OverWatchMetric × ℕ) m =>
          let r := on_overwatch_metric_computed SaveCondition.endEpoch acc.1 m
          (r.best, acc.2 + if r.saved then 1 else 0))
        (b, k)).2 = k + ms.length := by
  induction ms with
  | nil => intro b k; simp
  | cons m ms ih =>
    intro b k
    rw [List.foldl_cons]
    show (List.foldl _ (b, k + 1) ms).2 = k + (m :: ms).length
    rw [ih]
    simp only [List.length_cons]
    omega

lemma epoch_end_saves_endEpoch (ms : List OverWatchMetric) :
    epoch_end_saves SaveCondition.endEpoch ms = ms.length := by
  unfold epoch_end_saves
  rw [epoch_end_saves_go ms none 0]
  omega

/-- `compute_num_minibatches` computes the ceiling of `L / B`. -/
lemma minibatches_eq_ceil (L B : ℕ) (hB : 1 ≤ B) :
    compute_num_minibatches L B = (L + B - 1) / B := by
  unfold compute_num_minibatches
  have hdm := Nat.div_add_mod L B
  rcases Nat.eq_zero_or_pos (L % B) with h | h
  · have heq : (L % B == 0) = true := by simp [h]
    rw [heq]
    simp only [if_true]
    have h1 : L + B - 1 = B * (L / B) + (B - 1) := by omega
    rw [h1]
    rw [Nat.mul_add_div (show 0 < B by omega)]
    rw [Nat.div_eq_of_lt (show B - 1 < B by omega)]
    omega
  · have hne : (L % B == 0) = false := by
      simp only [beq_eq_false_iff_ne, ne_eq]
      omega
    rw [hne]
    simp only [Bool.false_eq_true, if_false]
    have hmod : L % B < B := Nat.mod_lt L (by omega)
    have h2 : L + B - 1 = B * (L / B + 1) + (L % B - 1) := by
      rw [Nat.mul_add, Nat.mul_one]
      omega
    rw [h2]
    rw [Nat.mul_add_div (show 0 < B by omega)]
    rw [Nat.div_eq_of_lt (show L % B - 1 < B by omega)]

/-! ## Claims -/

/-- **C1** (code_bug evidence).  Saver under `ON_IMPROVEMENT`
(`DEEP_SAVE_CONDITION_AUTO`) with `LOWER_IS_BETTER`: after a first observation
of value 5, a second observation of value 3 makes `is_saving_required` emit
`saving_required = true` on the bus — the improvement is detected — yet
`on_overwatch_metric_computed` does not invoke `save_model`, because
`is_saving_required` has no `return` statement and the guard
`is_saving_required(...) is True` compares `None` with `True`. -/
theorem saver_auto_second_improvement_detected_but_not_saved :
    (is_saving_required
        (on_overwatch_metric_computed SaveCondition.auto none
          ⟨"total_loss", Compare.smaller, 5⟩).best
        ⟨"total_loss", Compare.smaller, 3⟩).emitted = some true ∧
    (on_overwatch_metric_computed SaveCondition.auto
        (on_overwatch_metric_computed SaveCondition.auto none
          ⟨"total_loss", Compare.smaller, 5⟩).best
        ⟨"total_loss", Compare.smaller, 3⟩).saved = false := by
  decide

/-- **C2** (confirmed).  `Saver.is_saving_required` falls off the end of its
body for every input, so its Python return value is always `None`; hence in
`Saver.on_overwatch_metric_computed` under `DEEP_SAVE_CONDITION_AUTO` the
guard `is_saving_required(...) is True` is never satisfied and `save_model`
is never invoked from that path. -/
theorem is_saving_required_returns_none (best : Option OverWatchMetric)
    (current : OverWatchMetric) :
    (is_saving_required best current).ret = none ∧
    (on_overwatch_metric_computed SaveCondition.auto best current).saved = false := by
  constructor
  · unfold is_saving_required
    cases current.condition <;> dsimp <;> split <;> rfl
  · unfold on_overwatch_metric_computed
    dsimp
    have h : (is_saving_required best current).ret = none := by
      unfold is_saving_required
      cases current.condition <;> dsimp <;> split <;> rfl
    rw [h]
    rfl

/-- **C7** (confirmed).  Over any observation sequence with a fixed comparison
mode the Saver holds one stored best metric per observation (exactly one once
the first observation arrived — the state is a single `Option` field, so at
most one is ever held), and the stored best value moves only in the improving
direction: under `LOWER_IS_BETTER` each successive best is `≤` its
predecessor and strictly `<` whenever it changes; under `HIGHER_IS_BETTER`
symmetrically with `≥` / `>`. -/
theorem saver_best_metric_monotone (c : Compare) (ms : List OverWatchMetric)
    (hc : ∀ m ∈ ms, m.condition = c) :
    (best_values ms).length = ms.length ∧
    (∀ s ∈ saver_states ms, s.isSome) ∧
    (c = Compare.smaller →
      List.Chain' (fun a b : ℚ => b ≤ a ∧ (b ≠ a → b < a)) (best_values ms)) ∧
    (c = Compare.bigger →
      List.Chain' (fun a b : ℚ => a ≤ b ∧ (a ≠ b → a < b)) (best_values ms)) := by
  cases ms with
  | nil =>
    refine ⟨rfl, ?_, ?_, ?_⟩ <;> simp [saver_states, best_values]
  | cons m ms =>
    have hm : m.condition = c := hc m (List.mem_cons_self m ms)
    have hrest : ∀ m' ∈ ms, m'.condition = c :=
      fun m' h' => hc m' (List.mem_cons_of_mem m h')
    have hstates : saver_states (m :: ms) = some m :: run_states (some m) ms := by
      rw [saver_states_eq_run]
      simp [run_states, is_saving_required_none m]
    cases c with
    | smaller =>
      obtain ⟨bs, hbs, hlen, hchain⟩ := run_states_smaller ms m hrest
      have hvals : best_values (m :: ms) = (m :: bs).map OverWatchMetric.value := by
        unfold best_values
        rw [hstates, hbs]
        simp [List.filterMap_map, Function.comp_def, filterMap_some_val]
      refine ⟨?_, ?_, ?_, ?_⟩
      · rw [hvals]; simp [hlen]
      · intro s hs
        rw [hstates, hbs] at hs
        rcases List.mem_cons.mp hs with h | h
        · simp [h]
        · simp only [List.mem_map] at h
          obtain ⟨x, _, hx⟩ := h
          simp [← hx]
      · intro _
        rw [hvals, List.chain'_map]
        exact hchain.imp (fun a b h => ⟨h, fun hne => lt_of_le_of_ne h hne⟩)
      · intro hcc; exact absurd hcc (by simp)
    | bigger =>
      obtain ⟨bs, hbs, hlen, hchain⟩ := run_states_bigger ms m hrest
      have hvals : best_values (m :: ms) = (m :: bs).map OverWatchMetric.value := by
        unfold best_values
        rw [hstates, hbs]
        simp [List.filterMap_map, Function.comp_def, filterMap_some_val]
      refine ⟨?_, ?_, ?_, ?_⟩
      · rw [hvals]; simp [hlen]
      · intro s hs
        rw [hstates, hbs] at hs
        rcases List.mem_cons.mp hs with h | h
        · simp [h]
        · simp only [List.mem_map] at h
          obtain ⟨x, _, hx⟩ := h
          simp [← hx]
      · intro hcc; exact absurd hcc (by simp)
      · intro _
        rw [hvals, List.chain'_map]
        exact hchain.imp (fun a b h => ⟨h, fun hne => lt_of_le_of_ne h hne⟩)
    | invalid =>
      obtain ⟨bs, hbs, hlen⟩ := run_states_all_some ms m
      have hvals : best_values (m :: ms) = (m :: bs).map OverWatchMetric.value := by
        unfold best_values
        rw [hstates, hbs]
        simp [List.filterMap_map, Function.comp_def, filterMap_some_val]
      refine ⟨?_, ?_, fun hcc => absurd hcc (by simp), fun hcc => absurd hcc (by simp)⟩
      · rw [hvals]; simp [hlen]
      · intro s hs
        rw [hstates, hbs] at hs
        rcases List.mem_cons.mp hs with h | h
        · simp [h]
        · simp only [List.mem_map] at h
          obtain ⟨x, _, hx⟩ := h
          simp [← hx]

/-- Observation sequence used to instantiate the C7 theorem. -/
def saver_witness_ms : List OverWatchMetric :=
  [⟨"total_loss", Compare.smaller, 5⟩, ⟨"total_loss", Compare.smaller, 3⟩,
   ⟨"total_loss", Compare.smaller, 4⟩]

/-- Witness for C7 at a concrete observation sequence. -/
theorem saver_best_metric_monotone_witness :
    (best_values saver_witness_ms).length = saver_witness_ms.length ∧
    (∀ s ∈ saver_states saver_witness_ms, s.isSome) ∧
    (Compare.smaller = Compare.smaller →
      List.Chain' (fun a b : ℚ => b ≤ a ∧ (b ≠ a → b < a)) (best_values saver_witness_ms)) ∧
    (Compare.smaller = Compare.bigger →
      List.Chain' (fun a b : ℚ => a ≤ b ∧ (a ≠ b → a < b)) (best_values saver_witness_ms)) :=
  saver_best_metric_monotone Compare.smaller saver_witness_ms (by decide)

/-- **C3** (counterexample).  With `num_epochs = 2` and the default
`initial_epoch = 1`, `range(initial_epoch + 1, num_epochs + 1)` iterates a
single epoch (index 2), so a 12-item dataset with `batch_size = 4` under
`EVERY_EPOCH` yields 1 epoch-end callback, 3 batch-end callbacks and 1
checkpoint write — not the 2 / 6 / 2 the claim states. -/
theorem trainer_two_epochs_cex :
    num_epoch_end 1 2 = 1 ∧ num_batch_end 1 2 12 4 = 3 ∧
    epoch_end_saves SaveCondition.endEpoch
      (List.replicate (num_epoch_end 1 2) ⟨"total_loss", Compare.smaller, 1⟩) = 1 ∧
    ¬ (num_epoch_end 1 2 = 2 ∧ num_batch_end 1 2 12 4 = 6) := by
  decide

/-- **C3** (amended).  The training loop runs one epoch iteration per index in
`range(initial_epoch + 1, num_epochs + 1)`, i.e. `num_epochs - initial_epoch`
iterations; each iteration issues one epoch-end callback and
`ceil(L / B)` batch-end callbacks, and under `EVERY_EPOCH` each epoch-end
produces exactly one checkpoint write.  For `num_epochs = 2`,
`initial_epoch = 1`, a 12-item dataset and `batch_size = 4` this gives 1
checkpoint write, 1 epoch-end and 3 batch-end callbacks. -/
theorem trainer_loop_counts (i n L B : ℕ) (hB : 1 ≤ B)
    (ms : List OverWatchMetric) (hms : ms.length = num_epoch_end i n) :
    num_epoch_end i n = n - i ∧
    num_batch_end i n L B = (n - i) * ((L + B - 1) / B) ∧
    epoch_end_saves SaveCondition.endEpoch ms = n - i := by
  have hlen : num_epoch_end i n = n - i := by
    unfold num_epoch_end train_epochs
    simp [List.length_range']
  refine ⟨hlen, ?_, ?_⟩
  · unfold num_batch_end
    rw [minibatches_eq_ceil L B hB]
    unfold train_epochs
    simp [List.length_range']
  · rw [epoch_end_saves_endEpoch, hms, hlen]

/-- Witness for the amended C3 at the concrete spec scenario. -/
theorem trainer_loop_counts_witness :
    num_epoch_end 1 2 = 2 - 1 ∧
    num_batch_end 1 2 12 4 = (2 - 1) * ((12 + 4 - 1) / 4) ∧
    epoch_end_saves SaveCondition.endEpoch [⟨"total_loss", Compare.smaller, 1⟩] = 2 - 1 :=
  trainer_loop_counts 1 2 12 4 (by decide) [⟨"total_loss", Compare.smaller, 1⟩] (by decide)

/-- **C4** (code_bug evidence).  The recovery prompts of
`Saver.__handle_error_saving` loop on `response.lower() != ("y" or "n")`,
which in Python means `!= "y"`: the answer `"n"` is never accepted, a user
answering `"n"` at the retry prompt is re-prompted forever (here: a six-`"n"`
script leaves the loop still pending), and consequently the only terminal
outcome the sub-flow can ever produce is a retry — the switch-format and
abort branches are unreachable, contrary to the documented decision tree.
(Reaching the method at all would in fact already raise a `TypeError`:
it is declared with parameters `(name, model)` but called with just
`(model)` or `()`.) -/
theorem recovery_prompt_only_accepts_yes :
    yes_no_accepts "n" = false ∧ yes_no_accepts "y" = true ∧
    format_accepts "onnx" = false ∧
    handle_error_saving ["n", "n", "n", "n", "n", "n"] = none ∧
    (∀ answers : List String,
      ((handle_error_saving answers).map Prod.fst).getD RecoveryAction.retry
        = RecoveryAction.retry) := by
  refine ⟨rfl, rfl, rfl, rfl, ?_⟩
  intro answers
  unfold handle_error_saving
  cases h : prompt_until yes_no_accepts answers with
  | none => rfl
  | some p =>
    obtain ⟨r1, rest1⟩ := p
    have ha := prompt_until_accepts yes_no_accepts answers r1 rest1 h
    unfold yes_no_accepts at ha
    simp [ha]

/-- Reduction of `continue_training` past an accepted `"y"` answer. -/
lemma continue_training_yes (l : List String) (s : TrainerState) :
    continue_training ("y" :: l) s =
      match prompt_int l with
      | none => none
      | some (epochs, rest2) =>
        if epochs > 0 then
          some ⟨⟨s.num_epochs + 1, s.num_epochs + epochs, s.model_state, s.opt_state⟩,
                true, rest2⟩
        else some ⟨s, false, rest2⟩ := rfl

/-- **C5** (counterexample).  At the continue-training prompt, the answer
`"0"` (an integer `≤ 0`) is *not* rejected and re-prompted: the parse loop
breaks on any integer, the `epochs > 0` guard fails, and the prompt ends with
nothing resumed and the remaining script (`["7"]`) unread. -/
theorem continue_training_zero_cex :
    continue_training ["y", "0", "7"] ⟨1, 2, 0, 0⟩
      = some ⟨⟨1, 2, 0, 0⟩, false, ["7"]⟩ ∧
    (continue_training ["y", "0", "7"] ⟨1, 2, 0, 0⟩).map ContinueResult.resumed
      ≠ some true := by
  refine ⟨rfl, ?_⟩
  rw [show continue_training ["y", "0", "7"] ⟨1, 2, 0, 0⟩
      = some ⟨⟨1, 2, 0, 0⟩, false, ["7"]⟩ from rfl]
  simp

/-- **C5** (amended).  After a `"y"` at the continue prompt: a non-integer
answer is rejected and the next answer is read (re-prompt); an integer `≤ 0`
ends the prompt immediately with `num_epochs`, the model state and the
optimizer state unchanged and no resume; a positive integer `e` sets
`initial_epoch := num_epochs + 1`, extends `num_epochs` by `e` and resumes,
leaving the model and optimizer state untouched. -/
theorem continue_training_epochs_prompt (s : TrainerState) (rest : List String)
    (a : String) (e : ℤ) :
    (pyInt? a = none →
      continue_training ("y" :: a :: rest) s = continue_training ("y" :: rest) s) ∧
    (pyInt? a = some e → e ≤ 0 →
      continue_training ("y" :: a :: rest) s = some ⟨s, false, rest⟩) ∧
    (pyInt? a = some e → 0 < e →
      continue_training ("y" :: a :: rest) s =
        some ⟨⟨s.num_epochs + 1, s.num_epochs + e, s.model_state, s.opt_state⟩,
              true, rest⟩) := by
  refine ⟨?_, ?_, ?_⟩
  · intro hnone
    rw [continue_training_yes (a :: rest) s, continue_training_yes rest s]
    have hp : prompt_int (a :: rest) = prompt_int rest := by
      show (match pyInt? a with
            | some n => some (n, rest)
            | none => prompt_int rest) = prompt_int rest
      rw [hnone]
    rw [hp]
  · intro hsome hle
    rw [continue_training_yes (a :: rest) s]
    have hp : prompt_int (a :: rest) = some (e, rest) := by
      show (match pyInt? a with
            | some n => some (n, rest)
            | none => prompt_int rest) = some (e, rest)
      rw [hsome]
    rw [hp]
    have hng : ¬ (e > 0) := by omega
    simp [hng]
  · intro hsome hpos
    rw [continue_training_yes (a :: rest) s]
    have hp : prompt_int (a :: rest) = some (e, rest) := by
      show (match pyInt? a with
            | some n => some (n, rest)
            | none => prompt_int rest) = some (e, rest)
      rw [hsome]
    rw [hp]
    simp [hpos]

/-- Witness for the amended C5: a non-integer answer `"x"` is skipped, `"0"`
ends the prompt without resuming, `"7"` extends 2 epochs to 9 and resumes. -/
theorem continue_training_epochs_prompt_witness :
    continue_training ["y", "x", "7"] ⟨1, 2, 0, 0⟩
      = continue_training ["y", "7"] ⟨1, 2, 0, 0⟩ ∧
    continue_training ["y", "0", "5"] ⟨1, 2, 0, 0⟩
      = some ⟨⟨1, 2, 0, 0⟩, false, ["5"]⟩ ∧
    continue_training ["y", "7"] ⟨1, 2, 0, 0⟩
      = some ⟨⟨3, 9, 0, 0⟩, true, []⟩ :=
  ⟨(continue_training_epochs_prompt ⟨1, 2, 0, 0⟩ ["7"] "x" 0).1 rfl,
   (continue_training_epochs_prompt ⟨1, 2, 0, 0⟩ ["5"] "0" 0).2.1 rfl (by decide),
   (continue_training_epochs_prompt ⟨1, 2, 0, 0⟩ [] "7" 7).2.2 rfl (by decide)⟩

/-- **C6** (code_bug evidence).  Coercing `["1", "x", "3"]` to a list of
`int` does not fall back to the default `[1, 2, 3]`: `int("x")` raises
`ValueError`, but `Brain.__convert` catches only `TypeError`, so the
exception propagates out of `__convert_dtype` instead of producing the
documented whole-list fallback.  (The fallback path itself is live: an item
whose conversion raises `TypeError`, such as `None`, does return the
default.)  Additionally the guard `isinstance(dtype, int)` in `__convert`
references the undefined name `dtype` (the parameter is `d_type`), itself a
`NameError` on any call. -/
theorem convert_list_conversion_raises :
    convert_dtype_int_list [PyVal.str "1", PyVal.str "x", PyVal.str "3"] [1, 2, 3]
      = Except.error PyErr.valueError ∧
    convert_dtype_int_list [PyVal.str "1", PyVal.str "x", PyVal.str "3"] [1, 2, 3]
      ≠ Except.ok [1, 2, 3] ∧
    convert_int (PyVal.str "x") = Except.error PyErr.valueError ∧
    convert_int PyVal.pyNone = Except.ok none ∧
    convert_dtype_int_list [PyVal.str "1", PyVal.pyNone, PyVal.str "3"] [1, 2, 3]
      = Except.ok [1, 2, 3] := by
  have h0 : convert_dtype_int_list [PyVal.str "1", PyVal.str "x", PyVal.str "3"] [1, 2, 3]
      = Except.error PyErr.valueError := rfl
  refine ⟨h0, ?_, rfl, rfl, rfl⟩
  rw [h0]
  exact fun h => nomatch h

/-- **C8** (counterexample).  `save_model` builds the target path by plain
concatenation `self.directory + self.name + self.extension`; no path
separator is inserted, so with directory `"results"` and name `"m"` the
checkpoint goes to `"resultsm.model"`, not `"results/m.model"`. -/
theorem save_filepath_cex :
    save_filepath "results" "m" SaveMethod.pytorch = "resultsm.model" ∧
    save_filepath "results" "m" SaveMethod.pytorch
      ≠ "results" ++ "/" ++ "m" ++ extension SaveMethod.pytorch := by
  decide

/-- **C8** (amended).  The checkpoint path is the concatenation
`directory ++ name ++ extension` with no separator inserted (the directory
string must itself end in one for the file to land inside it); the extension
is `.onnx` exactly for the ONNX format and `.model` exactly for the PyTorch
format. -/
theorem save_filepath_concatenation (d n : String) (m : SaveMethod) :
    save_filepath d n m = d ++ n ++ extension m ∧
    (extension m = ".onnx" ↔ m = SaveMethod.onnx) ∧
    (extension m = ".model" ↔ m = SaveMethod.pytorch) := by
  refine ⟨rfl, ?_, ?_⟩ <;> cases m <;> simp [extension]

/-- **C9** (confirmed).  `compute_num_minibatches L B = ⌈L / B⌉` for every
`L ≥ 1`, `B ≥ 1`: it is `L / B` exactly when `B` divides `L` and `L / B + 1`
otherwise; in particular `(10, 4) ↦ 3` and `(12, 4) ↦ 3`. -/
theorem compute_num_minibatches_is_ceil (L B : ℕ) (hL : 1 ≤ L) (hB : 1 ≤ B) :
    compute_num_minibatches L B = (L + B - 1) / B ∧
    compute_num_minibatches L B = L ⌈/⌉ B ∧
    (B ∣ L → compute_num_minibatches L B = L / B) ∧
    (¬ B ∣ L → compute_num_minibatches L B = L / B + 1) ∧
    compute_num_minibatches 10 4 = 3 ∧ compute_num_minibatches 12 4 = 3 := by
  refine ⟨minibatches_eq_ceil L B hB, ?_, ?_, ?_, by decide, by decide⟩
  · rw [minibatches_eq_ceil L B hB, Nat.ceilDiv_eq_add_pred_div]
  · intro hdvd
    have hz : L % B = 0 := (Nat.dvd_iff_mod_eq_zero).mp hdvd
    unfold compute_num_minibatches
    simp [hz]
  · intro hdvd
    have hz : L % B ≠ 0 := fun hh => hdvd ((Nat.dvd_iff_mod_eq_zero).mpr hh)
    unfold compute_num_minibatches
    simp [hz]

/-- Witness for C9 at the two concrete spec scenarios. -/
theorem compute_num_minibatches_is_ceil_witness :
    compute_num_minibatches 12 4 = (12 + 4 - 1) / 4 ∧
    compute_num_minibatches 12 4 = 12 ⌈/⌉ 4 ∧
    ((4 : ℕ) ∣ 12 → compute_num_minibatches 12 4 = 12 / 4) ∧
    (¬ (4 : ℕ) ∣ 12 → compute_num_minibatches 12 4 = 12 / 4 + 1) ∧
    compute_num_minibatches 10 4 = 3 ∧ compute_num_minibatches 12 4 = 3 :=
  compute_num_minibatches_is_ceil 12 4 (by decide) (by decide)

/-! ## Namespace YAML round trip (`deeplodocus/utils/namespace.py`)

The claim's scope: namespaces built from nested mappings of strings, numbers
and ordered sequences of scalars.  Numbers are modelled as integers (the
float case is excluded from the shallow embedding).  A `Namespace.__dict__`
is an insertion-ordered association of keys to entries. -/

/-- Scalar config values in the claim's scope. -/
inductive Scalar where
  | str (s : String)
  | int (n : ℤ)
deriving DecidableEq, Repr

mutual
/-- One value stored under a key of a `Namespace`. -/
inductive Entry where
  | scalar (v : Scalar)
  | slist (items : List Scalar)
  | sub (ns : NS)
deriving DecidableEq, Repr

/-- A `Namespace`: its `__dict__` as an insertion-ordered association list. -/
inductive NS where
  | nil
  | cons (key : String) (e : Entry) (rest : NS)
deriving DecidableEq, Repr
end

/-! ### Integer rendering (Python `str(int)`) and parsing -/

/-- One decimal digit as a character. -/
def digit_char (d : ℕ) : Char :=
  match d with
  | 0 => '0' | 1 => '1' | 2 => '2' | 3 => '3' | 4 => '4'
  | 5 => '5' | 6 => '6' | 7 => '7' | 8 => '8' | _ => '9'

/-- Numeric value of a digit character. -/
def digit_val (c : Char) : ℕ := c.toNat - '0'.toNat

/-- Little-endian decimal digits of `n`, fuelled to stay structural. -/
def nat_digits_go : ℕ → ℕ → List Char
  | 0, _ => []
  | fuel + 1, n =>
    if n < 10 then [digit_char n]
    else digit_char (n % 10) :: nat_digits_go fuel (n / 10)

/-- Decimal representation of a natural number (Python `str`). -/
def nat_repr (n : ℕ) : List Char := (nat_digits_go (n + 1) n).reverse

/-- Decimal representation of an integer (Python `str`). -/
def int_repr (n : ℤ) : List Char :=
  if n < 0 then '-' :: nat_repr n.natAbs else nat_repr n.toNat

/-- Numeric value of a digit string (left fold). -/
def chars_to_nat (cs : List Char) : ℕ :=
  cs.foldl (fun acc c => 10 * acc + digit_val c) 0

/-- Parse a non-empty all-digit character list. -/
def parse_nat? (cs : List Char) : Option ℕ :=
  if cs ≠ [] ∧ cs.all Char.isDigit then some (chars_to_nat cs) else none

/-- Parse an optionally `-`-signed decimal integer. -/
def parse_int? (cs : List Char) : Option ℤ :=
  match cs with
  | [] => none
  | c :: ds =>
    if c = '-' then
      match parse_nat? ds with
      | none => none
      | some n => some (-(n : ℤ))
    else
      match parse_nat? (c :: ds) with
      | none => none
      | some n => some ((n : ℤ))

/-! ### The serializer, `Namespace.__get_summary` (namespace.py lines 128-154)

`save` calls `__get_summary(tab_size=2)`; nested calls use the default
`tab_size = 2` as well, so a key at nesting depth `tabs` is indented
`2 * tabs` spaces and a list item `(tab_size + 1) * tabs = 3 * tabs` spaces.
A string value is wrapped as `'"%s"' % value`; other values print via `%s`
(for our integers: `str(int)`).  Each element of the line list below is one
`line += "...\n"` emission of the source, in order. -/

/-- `" " * n`. -/
def spaces (n : ℕ) : List Char := List.replicate n ' '

/-- `'"%s"' % value` for strings, `"%s" % value` for integers. -/
def render_scalar : Scalar → List Char
  | Scalar.str s => '"' :: s.toList ++ ['"']
  | Scalar.int n => int_repr n

/-- One list-item line `"%s- %s\n" % (" " * (tab_size + 1) * tabs, item)`. -/
def item_line (t : ℕ) (v : Scalar) : List Char :=
  spaces (3 * t) ++ ('-' :: ' ' :: render_scalar v)

mutual
/-- The lines `__get_summary` emits for one key/value pair at depth `t`. -/
def summary_entry (t : ℕ) (k : String) : Entry → List (List Char)
  | Entry.scalar v => [spaces (2 * t) ++ (k.toList ++ ':' :: ' ' :: render_scalar v)]
  | Entry.slist items =>
      (spaces (2 * t) ++ (k.toList ++ [':'])) :: items.map (item_line t)
  | Entry.sub ns =>
      (spaces (2 * t) ++ (k.toList ++ [':'])) :: summary_ns (t + 1) ns

/-- The lines `__get_summary` emits for a whole `__dict__` at depth `t`. -/
def summary_ns (t : ℕ) : NS → List (List Char)
  | NS.nil => []
  | NS.cons k e rest => summary_entry t k e ++ summary_ns t rest
end

/-- Join lines with `"\n"` after each (every `line +=` in the source ends in
`"\n"`). -/
def join_lines (ls : List (List Char)) : List Char :=
  ls.foldr (fun l acc => l ++ '\n' :: acc) []

/-- `self.__get_summary(tab_size=2)` as one character string. -/
def get_summary (ns : NS) : List Char := join_lines (summary_ns 0 ns)

/-- Does the character list begin with `None`? -/
def starts_none (cs : List Char) : Bool :=
  match cs with
  | c1 :: c2 :: c3 :: c4 :: _ => c1 == 'N' && c2 == 'o' && c3 == 'n' && c4 == 'e'
  | _ => false

mutual
/-- Python `str.replace(" None", " Null")`: scan left to right, replace every
(non-overlapping) occurrence, continue after the replacement. -/
def replace_none_null : List Char → List Char
  | [] => []
  | c :: rest =>
    if c == ' ' && starts_none rest then
      ' ' :: 'N' :: 'u' :: 'l' :: 'l' :: replace_after_none rest
    else c :: replace_none_null rest

/-- Continue the replacement scan after the four matched `None` characters
(only invoked when the list is known to begin with them). -/
def replace_after_none : List Char → List Char
  | _ :: _ :: _ :: _ :: rest2 => replace_none_null rest2
  | _ => []
end

/-- Whether `" None"` occurs in the character list. -/
def has_none_sub : List Char → Bool
  | [] => false
  | c :: rest => (c == ' ' && starts_none rest) || has_none_sub rest

/-- `Namespace.save` (namespace.py lines 85-94): write
`self.__get_summary(tab_size=2).replace(" None", " Null")`. -/
def save_chars (ns : NS) : List Char := replace_none_null (get_summary ns)

/-! ### The loader

`Namespace.load` (namespace.py lines 44-54) runs `yaml.load` on the file and
converts the resulting dictionary with `__dict2namespace`.  `yaml` is the
external PyYAML library, so the parser below is a model of it, restricted to
the block style the serializer above emits. -/

/-- Split a character stream into lines at `'\n'`; a final `'\n'` produces no
trailing empty line. -/
def split_lines : List Char → List (List Char)
  | [] => []
  | c :: rest =>
    if c = '\n' then [] :: split_lines rest
    else
      match split_lines rest with
      | [] => [[c]]
      | l :: ls => (c :: l) :: ls

/-- Require exactly `n` leading spaces and return what follows. -/
def drop_spaces_exact (n : ℕ) (l : List Char) : Option (List Char) :=
  if l.take n = List.replicate n ' ' then some (l.drop n) else none

/-- Split at the first `':'`. -/
def split_colon : List Char → Option (List Char × List Char)
  | [] => none
  | c :: rest =>
    if c = ':' then some ([], rest)
    else (split_colon rest).map (fun p => (c :: p.1, p.2))

/-- Modelled from the spec: one step of the PyYAML block-mapping parser.
Parse a `key:` / `key: value` line of a mapping at depth `t` (indent
`2 * t`); returns the key and, for a `key: value` line, the value
characters.  Lines that are blank at that position, deeper-indented lines and
lines without a colon are not mapping lines of this block. -/
def parse_key_line (t : ℕ) (l : List Char) : Option (String × Option (List Char)) :=
  match drop_spaces_exact (2 * t) l with
  | none => none
  | some [] => none
  | some (c :: body) =>
    if c = ' ' then none
    else
      match split_colon (c :: body) with
      | none => none
      | some (k, rest) =>
        match rest with
        | [] => some (⟨k⟩, none)
        | r :: rest' => if r = ' ' then some (⟨k⟩, some rest') else none

/-- Modelled from the spec: parse one scalar — a double-quoted string keeps
its contents verbatim, otherwise a signed decimal integer. -/
def parse_scalar (cs : List Char) : Option Scalar :=
  match cs with
  | [] => none
  | c :: rest =>
    if c = '"' then
      match rest.getLast? with
      | some q => if q = '"' then some (Scalar.str ⟨rest.dropLast⟩) else none
      | none => none
    else (parse_int? cs).map Scalar.int

/-- Modelled from the spec: parse one `- item` sequence line at item indent
`3 * t` (the indent the serializer uses for items of a depth-`t` key). -/
def parse_item (t : ℕ) (l : List Char) : Option Scalar :=
  match drop_spaces_exact (3 * t) l with
  | none => none
  | some body =>
    match body with
    | c1 :: c2 :: val => if c1 = '-' ∧ c2 = ' ' then parse_scalar val else none
    | _ => none

/-- Consume the sequence lines of a block sequence; stop at the first
non-item line. -/
def parse_items (t : ℕ) : List (List Char) → List Scalar × List (List Char)
  | [] => ([], [])
  | l :: rest =>
    match parse_item t l with
    | none => ([], l :: rest)
    | some v =>
      let p := parse_items t rest
      (v :: p.1, p.2)

/-- Does the next line parse as a sequence item of a depth-`t` key? -/
def head_is_item (t : ℕ) : List (List Char) → Bool
  | [] => false
  | l :: _ => (parse_item t l).isSome

/-- Modelled from the spec: the PyYAML block parser for a mapping at depth
`t`, fuelled to stay structural.  Parses the entries of one block and returns
them with the unconsumed lines (the first line that is not a mapping line of
this block).  A `key:` header is a sequence when the following line is an
item line at this key's item indent, otherwise a nested mapping. -/
def parse_entries (fuel : ℕ) (t : ℕ) (lines : List (List Char)) :
    Option (NS × List (List Char)) :=
  match fuel with
  | 0 => none
  | fuel + 1 =>
    match lines with
    | [] => some (NS.nil, [])
    | l :: rest =>
      match parse_key_line t l with
      | none => some (NS.nil, l :: rest)
      | some (k, some val) =>
        match parse_scalar val with
        | none => none
        | some v =>
          match parse_entries fuel t rest with
          | none => none
          | some p => some (NS.cons k (Entry.scalar v) p.1, p.2)
      | some (k, none) =>
        if head_is_item t rest then
          match parse_entries fuel t (parse_items t rest).2 with
          | none => none
          | some p => some (NS.cons k (Entry.slist (parse_items t rest).1) p.1, p.2)
        else
          match parse_entries fuel (t + 1) rest with
          | none => none
          | some q =>
            match parse_entries fuel t q.2 with
            | none => none
            | some p => some (NS.cons k (Entry.sub q.1) p.1, p.2)

/-- Modelled from the spec: `Namespace.load` — `yaml.load` of the file
contents followed by `__dict2namespace`; fails when the document is not a
single block mapping consuming every line. -/
def namespace_load (cs : List Char) : Option NS :=
  match parse_entries (2 * (split_lines cs).length + 1) 0 (split_lines cs) with
  | some (ns, []) => some ns
  | _ => none

/-- Save to YAML, then reload: the round trip of the claim. -/
def round_trip (ns : NS) : Option NS := namespace_load (save_chars ns)

/-! ### Well-formedness

The amended claim restricts keys and strings to shapes on which the emitted
YAML is unambiguous: identifier-like keys that are not YAML keywords and do
not begin with `"None"` (the `save` replace would corrupt an indented such
key), and strings free of `"`/`\`/newline and of the `" None"` substring. -/

/-- Words PyYAML resolves to booleans or null when unquoted. -/
def reserved_words : List String :=
  ["yes", "Yes", "YES", "no", "No", "NO", "true", "True", "TRUE",
   "false", "False", "FALSE", "on", "On", "ON", "off", "Off", "OFF",
   "null", "Null", "NULL"]

/-- Non-leading key characters: alphanumeric or underscore. -/
def good_key_char (c : Char) : Bool := c.isAlphanum || c = '_'

/-- Identifier-like key, not reserved, not beginning with `None`. -/
def good_key (k : String) : Bool :=
  match k.toList with
  | [] => false
  | c :: rest =>
      (c.isAlpha || c = '_') && rest.all good_key_char &&
      !starts_none k.toList && !reserved_words.contains k

/-- String scalar free of quote, backslash, newline and `" None"`. -/
def good_str (s : String) : Bool :=
  s.toList.all (fun c => c ≠ '"' && c ≠ '\\' && c ≠ '\n') &&
  !has_none_sub s.toList

def wf_scalar : Scalar → Bool
  | Scalar.str s => good_str s
  | Scalar.int _ => true

/-- The keys of a namespace. -/
def ns_keys : NS → List String
  | NS.nil => []
  | NS.cons k _ rest => k :: ns_keys rest

/-- Is the namespace empty? -/
def ns_is_nil : NS → Bool
  | NS.nil => true
  | NS.cons _ _ _ => false

mutual
/-- Well-formed entry: scalars well-formed, sequences and sub-namespaces
non-empty (an empty one serializes to a bare `key:` header that YAML reads
back as null). -/
def wf_entry : Entry → Bool
  | Entry.scalar v => wf_scalar v
  | Entry.slist items => !items.isEmpty && items.all wf_scalar
  | Entry.sub ns => !ns_is_nil ns && wf_ns ns

/-- Well-formed namespace: good distinct keys, well-formed entries. -/
def wf_ns : NS → Bool
  | NS.nil => true
  | NS.cons k e rest =>
      good_key k && wf_entry e && !(ns_keys rest).contains k && wf_ns rest
end

/-- Well-formed top-level namespace (also non-empty: an empty document loads
as null, not as an empty mapping). -/
def wf_top (ns : NS) : Bool := !ns_is_nil ns && wf_ns ns

/-! ### Decimal round-trip lemmas -/

lemma digit_char_isDigit (d : ℕ) (h : d < 10) : (digit_char d).isDigit = true := by
  interval_cases d <;> rfl

lemma digit_val_digit_char (d : ℕ) (h : d < 10) : digit_val (digit_char d) = d := by
  interval_cases d <;> rfl

lemma chars_to_nat_concat (cs : List Char) (c : Char) :
    chars_to_nat (cs ++ [c]) = 10 * chars_to_nat cs + digit_val c := by
  unfold chars_to_nat
  rw [List.foldl_append]
  rfl

lemma nat_digits_go_spec (fuel : ℕ) :
    ∀ n : ℕ, n < fuel →
      nat_digits_go fuel n ≠ [] ∧
      (∀ c ∈ nat_digits_go fuel n, c.isDigit = true) ∧
      chars_to_nat (nat_digits_go fuel n).reverse = n := by
  induction fuel with
  | zero => intro n h; omega
  | succ fuel ih =>
    intro n h
    by_cases h10 : n < 10
    · refine ⟨?_, ?_, ?_⟩
      · simp [nat_digits_go, h10]
      · intro c hc
        simp only [nat_digits_go, if_pos h10, List.mem_singleton] at hc
        rw [hc]
        exact digit_char_isDigit n h10
      · simp only [nat_digits_go, if_pos h10, List.reverse_singleton]
        unfold chars_to_nat
        simp [digit_val_digit_char n h10]
    · have hlt : n / 10 < fuel := by
        have := Nat.div_lt_self (show 0 < n by omega) (show 1 < 10 by omega)
        omega
      obtain ⟨hne, hdig, hval⟩ := ih (n / 10) hlt
      refine ⟨?_, ?_, ?_⟩
      · simp [nat_digits_go, h10]
      · intro c hc
        simp only [nat_digits_go, if_neg h10, List.mem_cons] at hc
        rcases hc with hc | hc
        · rw [hc]; exact digit_char_isDigit _ (Nat.mod_lt n (by omega))
        · exact hdig c hc
      · simp only [nat_digits_go, if_neg h10, List.reverse_cons]
        rw [chars_to_nat_concat, hval,
            digit_val_digit_char _ (Nat.mod_lt n (by omega))]
        omega

lemma nat_repr_spec (n : ℕ) :
    nat_repr n ≠ [] ∧ (∀ c ∈ nat_repr n, c.isDigit = true) ∧
      chars_to_nat (nat_repr n) = n := by
  obtain ⟨hne, hdig, hval⟩ := nat_digits_go_spec (n + 1) n (by omega)
  unfold nat_repr
  refine ⟨by simpa using hne, ?_, hval⟩
  intro c hc
  exact hdig c (by simpa using hc)

lemma parse_nat_repr (n : ℕ) : parse_nat? (nat_repr n) = some n := by
  obtain ⟨hne, hdig, hval⟩ := nat_repr_spec n
  unfold parse_nat?
  rw [if_pos ⟨hne, by simpa [List.all_eq_true] using hdig⟩, hval]

lemma nat_repr_head_digit (n : ℕ) :
    ∃ c cs, nat_repr n = c :: cs ∧ c.isDigit = true := by
  obtain ⟨hne, hdig, _⟩ := nat_repr_spec n
  cases hrep : nat_repr n with
  | nil => exact absurd hrep hne
  | cons c cs =>
    exact ⟨c, cs, rfl, hdig c (by rw [hrep]; exact List.mem_cons_self c cs)⟩

lemma parse_int_cons (c : Char) (ds : List Char) :
    parse_int? (c :: ds) =
      if c = '-' then
        match parse_nat? ds with
        | none => none
        | some n => some (-(n : ℤ))
      else
        match parse_nat? (c :: ds) with
        | none => none
        | some n => some ((n : ℤ)) := rfl

lemma parse_int_repr (n : ℤ) : parse_int? (int_repr n) = some n := by
  by_cases hneg : n < 0
  · have hrep : int_repr n = '-' :: nat_repr n.natAbs := by
      unfold int_repr
      rw [if_pos hneg]
    rw [hrep, parse_int_cons, if_pos rfl, parse_nat_repr]
    show some (-(n.natAbs : ℤ)) = some n
    congr 1
    omega
  · obtain ⟨c, cs, hrep0, hdig⟩ := nat_repr_head_digit n.toNat
    have hrep : int_repr n = c :: cs := by
      unfold int_repr
      rw [if_neg hneg, hrep0]
    have hcne : c ≠ '-' := by
      intro hcc
      rw [hcc] at hdig
      exact absurd hdig (by decide)
    rw [hrep, parse_int_cons, if_neg hcne, ← hrep0, parse_nat_repr]
    show some ((n.toNat : ℤ)) = some n
    congr 1
    omega

/-! ### Scalar round trip -/

lemma string_mk_toList (s : String) : (⟨s.toList⟩ : String) = s := by
  cases s
  rfl

lemma parse_scalar_cons (c : Char) (rest : List Char) :
    parse_scalar (c :: rest) =
      if c = '"' then
        match rest.getLast? with
        | some q => if q = '"' then some (Scalar.str ⟨rest.dropLast⟩) else none
        | none => none
      else (parse_int? (c :: rest)).map Scalar.int := rfl

lemma int_repr_head_not (n : ℤ) (c₀ : Char) (h0 : ¬ c₀.isDigit) (h1 : c₀ ≠ '-') :
    ∃ c cs, int_repr n = c :: cs ∧ c ≠ c₀ := by
  by_cases hneg : n < 0
  · refine ⟨'-', nat_repr n.natAbs, ?_, fun hc => h1 hc.symm⟩
    unfold int_repr
    rw [if_pos hneg]
  · obtain ⟨c, cs, hrep0, hdig⟩ := nat_repr_head_digit n.toNat
    refine ⟨c, cs, ?_, ?_⟩
    · unfold int_repr
      rw [if_neg hneg, hrep0]
    · intro hc
      rw [hc] at hdig
      exact h0 hdig

lemma parse_render_scalar (v : Scalar) : parse_scalar (render_scalar v) = some v := by
  cases v with
  | str s =>
    show parse_scalar ('"' :: (s.toList ++ ['"'])) = some (Scalar.str s)
    rw [parse_scalar_cons, if_pos rfl, List.getLast?_concat]
    show (if ('"' : Char) = '"' then some (Scalar.str ⟨(s.toList ++ ['"']).dropLast⟩)
          else none) = some (Scalar.str s)
    rw [if_pos rfl, List.dropLast_concat, string_mk_toList]
  | int n =>
    show parse_scalar (int_repr n) = some (Scalar.int n)
    obtain ⟨c, cs, hrep, hne⟩ := int_repr_head_not n '"' (by decide) (by decide)
    rw [hrep, parse_scalar_cons, if_neg hne, ← hrep, parse_int_repr]
    rfl

/-! ### Line-level parser lemmas -/

lemma split_colon_cons (c : Char) (l : List Char) :
    split_colon (c :: l) =
      if c = ':' then some ([], l)
      else (split_colon l).map (fun p => (c :: p.1, p.2)) := rfl

lemma split_colon_append (k : List Char) (r : List Char) (h : ':' ∉ k) :
    split_colon (k ++ ':' :: r) = some (k, r) := by
  induction k with
  | nil =>
    show split_colon (':' :: r) = some ([], r)
    rw [split_colon_cons, if_pos rfl]
  | cons c cs ih =>
    have hc : c ≠ ':' := fun hh => h (hh ▸ List.mem_cons_self c cs)
    show split_colon (c :: (cs ++ ':' :: r)) = some (c :: cs, r)
    rw [split_colon_cons, if_neg hc, ih (fun hm => h (List.mem_cons_of_mem c hm))]
    rfl

lemma spaces_split {a b : ℕ} (h : a ≤ b) :
    spaces b = spaces a ++ spaces (b - a) := by
  unfold spaces
  rw [← List.replicate_add]
  congr 1
  omega

lemma drop_spaces_exact_eq (n : ℕ) (x : List Char) :
    drop_spaces_exact n (spaces n ++ x) = some x := by
  unfold drop_spaces_exact
  have hlen : (spaces n).length = n := by simp [spaces]
  rw [List.take_left' hlen, List.drop_left' hlen]
  rw [if_pos (show spaces n = List.replicate n ' ' from rfl)]

lemma take_spaces_ne (n : ℕ) :
    ∀ (m : ℕ) (c : Char) (cs : List Char), c ≠ ' ' → m < n →
      (spaces m ++ c :: cs).take n ≠ List.replicate n ' ' := by
  induction n with
  | zero => intro m c cs hc hm; omega
  | succ n ih =>
    intro m c cs hc hm
    cases m with
    | zero =>
      show ((c :: cs).take (n + 1)) ≠ _
      rw [List.take_succ_cons, List.replicate_succ]
      intro h
      injection h with h1 _
      exact hc h1
    | succ m =>
      show ((' ' :: (spaces m ++ c :: cs)).take (n + 1)) ≠ _
      rw [List.take_succ_cons, List.replicate_succ]
      intro h
      injection h with _ h2
      exact ih m c cs hc (by omega) h2

lemma drop_spaces_exact_lt (n m : ℕ) (c : Char) (cs : List Char)
    (hc : c ≠ ' ') (hm : m < n) :
    drop_spaces_exact n (spaces m ++ c :: cs) = none := by
  unfold drop_spaces_exact
  rw [if_neg (take_spaces_ne n m c cs hc hm)]

/-! ### `good_key` facts -/

lemma good_key_char_ne (c : Char) (h : good_key_char c = true) :
    c ≠ ' ' ∧ c ≠ ':' ∧ c ≠ '-' ∧ c ≠ '"' ∧ c ≠ '\n' := by
  refine ⟨?_, ?_, ?_, ?_, ?_⟩ <;> (rintro rfl; revert h; decide)

lemma good_key_head_ne (c : Char) (h : (c.isAlpha || c = '_') = true) :
    c ≠ ' ' ∧ c ≠ ':' ∧ c ≠ '-' ∧ c ≠ '"' ∧ c ≠ '\n' := by
  refine ⟨?_, ?_, ?_, ?_, ?_⟩ <;> (rintro rfl; revert h; decide)

lemma good_key_facts (k : String) (h : good_key k = true) :
    k.toList ≠ [] ∧
    (∀ x ∈ k.toList, x ≠ ' ' ∧ x ≠ ':' ∧ x ≠ '-' ∧ x ≠ '"' ∧ x ≠ '\n') := by
  unfold good_key at h
  cases hk : k.toList with
  | nil => rw [hk] at h; simp at h
  | cons c rest =>
    rw [hk] at h
    simp only [Bool.and_eq_true, List.all_eq_true] at h
    obtain ⟨⟨⟨hhead, hall⟩, _⟩, _⟩ := h
    refine ⟨List.cons_ne_nil c rest, ?_⟩
    intro x hx
    rcases List.mem_cons.mp hx with hx | hx
    · rw [hx]; exact good_key_head_ne c hhead
    · exact good_key_char_ne x (hall x hx)

/-! ### `parse_key_line` behaviour -/

lemma parse_key_line_found (t : ℕ) (k : String) (cs : List Char)
    (hk : good_key k = true) :
    parse_key_line t (spaces (2 * t) ++ (k.toList ++ ':' :: cs)) =
      (match cs with
       | [] => some (k, none)
       | r :: rest' => if r = ' ' then some (k, some rest') else none) := by
  obtain ⟨hne, hmem⟩ := good_key_facts k hk
  cases hkl : k.toList with
  | nil => exact absurd hkl hne
  | cons c rest =>
    have hc_sp : c ≠ ' ' :=
      (hmem c (by rw [hkl]; exact List.mem_cons_self c rest)).1
    have hcolon : ':' ∉ (c :: rest) := by
      intro hm
      rw [← hkl] at hm
      exact (hmem ':' hm).2.1 rfl
    unfold parse_key_line
    rw [List.cons_append]
    rw [drop_spaces_exact_eq (2 * t) (c :: (rest ++ ':' :: cs))]
    dsimp only
    rw [if_neg hc_sp]
    have hsc : split_colon (c :: (rest ++ ':' :: cs)) = some (c :: rest, cs) := by
      rw [← List.cons_append]
      exact split_colon_append (c :: rest) cs hcolon
    rw [hsc]
    have hks : (⟨c :: rest⟩ : String) = k := by
      rw [← hkl]
      exact string_mk_toList k
    dsimp only
    rw [hks]

lemma parse_key_line_header (t : ℕ) (k : String) (hk : good_key k = true) :
    parse_key_line t (spaces (2 * t) ++ (k.toList ++ [':'])) = some (k, none) :=
  parse_key_line_found t k [] hk

lemma parse_key_line_scalar (t : ℕ) (k : String) (val : List Char)
    (hk : good_key k = true) :
    parse_key_line t (spaces (2 * t) ++ (k.toList ++ ':' :: ' ' :: val)) =
      some (k, some val) := by
  have h := parse_key_line_found t k (' ' :: val) hk
  rw [h]
  dsimp only
  rw [if_pos rfl]

lemma parse_key_line_too_shallow (t tp : ℕ) (c : Char) (cs : List Char)
    (hc : c ≠ ' ') (h : tp < 2 * t) :
    parse_key_line t (spaces tp ++ c :: cs) = none := by
  unfold parse_key_line
  rw [drop_spaces_exact_lt (2 * t) tp c cs hc h]

/-! ### `parse_item` behaviour -/

lemma parse_item_line (t : ℕ) (v : Scalar) :
    parse_item t (item_line t v) = some v := by
  unfold parse_item item_line
  rw [drop_spaces_exact_eq (3 * t) ('-' :: ' ' :: render_scalar v)]
  dsimp only
  rw [if_pos ⟨rfl, rfl⟩]
  exact parse_render_scalar v

/-- A mapping line of depth `tp ≤ t` is never an item line of a depth-`t`
key (cases on the relative indents `2 * tp` vs `3 * t`). -/
lemma parse_item_keyline (t tp : ℕ) (c : Char) (cs : List Char)
    (hsp : c ≠ ' ') (hdash : c ≠ '-') (h : tp ≤ t) :
    parse_item t (spaces (2 * tp) ++ c :: cs) = none := by
  unfold parse_item
  rcases Nat.lt_or_ge (2 * tp) (3 * t) with hlt | hge
  · rw [drop_spaces_exact_lt (3 * t) (2 * tp) c cs hsp hlt]
  · have ht : t = 0 := by omega
    have htp : tp = 0 := by omega
    subst ht
    subst htp
    simp only [Nat.mul_zero]
    rw [drop_spaces_exact_eq 0 (c :: cs)]
    dsimp only
    cases cs with
    | nil => rfl
    | cons c2 cs' =>
      dsimp only
      rw [if_neg (fun hand : c = '-' ∧ c2 = ' ' => hdash hand.1)]

/-- A line starting, after any number of spaces, with a character that is
neither a space nor a dash is never a sequence-item line. -/
lemma parse_item_not_item (t m : ℕ) (c : Char) (cs : List Char)
    (hsp : c ≠ ' ') (hdash : c ≠ '-') :
    parse_item t (spaces m ++ (c :: cs)) = none := by
  unfold parse_item
  rcases lt_trichotomy m (3 * t) with hlt | heq | hgt
  · rw [drop_spaces_exact_lt (3 * t) m c cs hsp hlt]
  · subst heq
    rw [drop_spaces_exact_eq (3 * t) (c :: cs)]
    dsimp only
    cases cs with
    | nil => rfl
    | cons c2 cs' =>
      dsimp only
      rw [if_neg (fun hand : c = '-' ∧ c2 = ' ' => hdash hand.1)]
  · have hsplit : spaces m ++ (c :: cs) =
        spaces (3 * t) ++ (spaces (m - 3 * t) ++ (c :: cs)) := by
      rw [← List.append_assoc, ← spaces_split (by omega)]
    rw [hsplit, drop_spaces_exact_eq (3 * t) (spaces (m - 3 * t) ++ (c :: cs))]
    obtain ⟨j, hj⟩ : ∃ j, m - 3 * t = j + 1 := ⟨m - 3 * t - 1, by omega⟩
    rw [hj]
    show (match (' ' :: (spaces j ++ (c :: cs))) with
          | c1 :: c2 :: val => if c1 = '-' ∧ c2 = ' ' then parse_scalar val else none
          | _ => none) = none
    obtain ⟨d, ds, hd⟩ : ∃ d ds, spaces j ++ (c :: cs) = d :: ds := by
      cases j with
      | zero => exact ⟨c, cs, rfl⟩
      | succ j => exact ⟨' ', spaces j ++ (c :: cs), rfl⟩
    rw [hd]
    dsimp only
    rw [if_neg (fun hand : (' ' : Char) = '-' ∧ d = ' ' => absurd hand.1 (by decide))]

/-! ### Block structure invariants -/

/-- The given line is a mapping line of depth `tp` with a good key. -/
def keyline_at (tp : ℕ) (l : List Char) : Prop :=
  ∃ (k : String) (cs : List Char),
    good_key k = true ∧ l = spaces (2 * tp) ++ (k.toList ++ ':' :: cs)

/-- Every head line (if any) is a mapping line shallower than depth `t`:
the shape of the unread lines whenever the parser finishes a depth-`t`
block. -/
def outer_rest (t : ℕ) (L : List (List Char)) : Prop :=
  ∀ l, L.head? = some l → ∃ tp, tp < t ∧ keyline_at tp l

lemma outer_rest_nil (t : ℕ) : outer_rest t [] := by
  intro l h
  simp at h

lemma outer_rest_mono {t t' : ℕ} (h : t ≤ t') {L : List (List Char)}
    (ho : outer_rest t L) : outer_rest t' L := by
  intro l hl
  obtain ⟨tp, hlt, hk⟩ := ho l hl
  exact ⟨tp, by omega, hk⟩

lemma keyline_head (tp : ℕ) (l : List Char) (h : keyline_at tp l) :
    ∃ c cs2, l = spaces (2 * tp) ++ (c :: cs2) ∧ c ≠ ' ' ∧ c ≠ '-' := by
  obtain ⟨k, cs, hgk, rfl⟩ := h
  obtain ⟨hne, hmem⟩ := good_key_facts k hgk
  cases hkl : k.toList with
  | nil => exact absurd hkl hne
  | cons c kr =>
    have hc := hmem c (by rw [hkl]; exact List.mem_cons_self c kr)
    exact ⟨c, kr ++ ':' :: cs, by rw [List.cons_append], hc.1, hc.2.2.1⟩

lemma keyline_no_key (t tp : ℕ) (l : List Char) (hlt : tp < t)
    (h : keyline_at tp l) : parse_key_line t l = none := by
  obtain ⟨c, cs2, rfl, hsp, _⟩ := keyline_head tp l h
  exact parse_key_line_too_shallow t (2 * tp) c cs2 hsp (by omega)

lemma keyline_no_item (t tp : ℕ) (l : List Char) (h : keyline_at tp l) :
    parse_item t l = none := by
  obtain ⟨c, cs2, rfl, hsp, hdash⟩ := keyline_head tp l h
  exact parse_item_not_item t (2 * tp) c cs2 hsp hdash

/-- The first line a depth-`t` block emits for a non-empty namespace is a
depth-`t` mapping line. -/
lemma summary_ns_head (t : ℕ) (k : String) (e : Entry) (rest : NS) :
    ∃ cs tl, summary_ns t (NS.cons k e rest) =
      (spaces (2 * t) ++ (k.toList ++ ':' :: cs)) :: tl := by
  cases e with
  | scalar v => exact ⟨' ' :: render_scalar v, summary_ns t rest, rfl⟩
  | slist items =>
    exact ⟨[], (items.map (item_line t)) ++ summary_ns t rest, rfl⟩
  | sub s =>
    exact ⟨[], summary_ns (t + 1) s ++ summary_ns t rest, rfl⟩

/-- After a depth-`t` block, every head line is shallower than `t + 1`. -/
lemma block_outer (t : ℕ) (ns : NS) (rest : List (List Char))
    (hgood : ∀ k e tail, ns = NS.cons k e tail → good_key k = true)
    (hstop : outer_rest t rest) :
    outer_rest (t + 1) (summary_ns t ns ++ rest) := by
  cases ns with
  | nil =>
    intro l hl
    rw [show summary_ns t NS.nil ++ rest = rest from rfl] at hl
    obtain ⟨tp, hlt, hk⟩ := hstop l hl
    exact ⟨tp, by omega, hk⟩
  | cons k e tail =>
    intro l hl
    obtain ⟨cs, tl, heq⟩ := summary_ns_head t k e tail
    rw [heq] at hl
    simp only [List.cons_append, List.head?_cons, Option.some.injEq] at hl
    exact ⟨t, by omega, k, cs, hgood k e tail rfl, hl.symm⟩

/-! ### Sequence-line consumption -/

lemma parse_items_sound (t : ℕ) (items : List Scalar) :
    ∀ (L : List (List Char)),
      (∀ l, L.head? = some l → parse_item t l = none) →
      parse_items t (items.map (item_line t) ++ L) = (items, L) := by
  induction items with
  | nil =>
    intro L hL
    cases L with
    | nil => rfl
    | cons l rest =>
      have hno := hL l rfl
      show parse_items t (l :: rest) = ([], l :: rest)
      unfold parse_items
      rw [hno]
  | cons v vs ih =>
    intro L hL
    show parse_items t (item_line t v :: (vs.map (item_line t) ++ L)) = (v :: vs, L)
    unfold parse_items
    rw [parse_item_line t v, ih L hL]

/-! ### Fuel accounting -/

mutual
/-- Number of `parse_entries` invocations needed to parse one entry (a
sub-namespace costs its own block's budget on top of the entry step). -/
def entry_cost : Entry → ℕ
  | Entry.scalar _ => 1
  | Entry.slist _ => 1
  | Entry.sub s => 1 + ns_cost s

/-- Number of `parse_entries` invocations needed to parse a block (one final
invocation detects the end of the block). -/
def ns_cost : NS → ℕ
  | NS.nil => 1
  | NS.cons _ e rest => entry_cost e + ns_cost rest
end

lemma entry_cost_pos (e : Entry) : 1 ≤ entry_cost e := by
  cases e <;> simp [entry_cost]

lemma ns_cost_pos (ns : NS) : 1 ≤ ns_cost ns := by
  cases ns with
  | nil => simp [ns_cost]
  | cons k e rest =>
    have := entry_cost_pos e
    simp [ns_cost]
    omega

/-! ### `parse_entries` unfolding -/

lemma parse_entries_nil (fuel t : ℕ) :
    parse_entries (fuel + 1) t [] = some (NS.nil, []) := rfl

lemma parse_entries_cons (fuel t : ℕ) (l : List Char) (rest : List (List Char)) :
    parse_entries (fuel + 1) t (l :: rest) =
      match parse_key_line t l with
      | none => some (NS.nil, l :: rest)
      | some (k, some val) =>
        match parse_scalar val with
        | none => none
        | some v =>
          match parse_entries fuel t rest with
          | none => none
          | some p => some (NS.cons k (Entry.scalar v) p.1, p.2)
      | some (k, none) =>
        if head_is_item t rest then
          match parse_entries fuel t (parse_items t rest).2 with
          | none => none
          | some p => some (NS.cons k (Entry.slist (parse_items t rest).1) p.1, p.2)
        else
          match parse_entries fuel (t + 1) rest with
          | none => none
          | some q =>
            match parse_entries fuel t q.2 with
            | none => none
            | some p => some (NS.cons k (Entry.sub q.1) p.1, p.2) := rfl

/-! ### Well-formedness projections -/

lemma wf_ns_cons (k : String) (e : Entry) (rest : NS)
    (h : wf_ns (NS.cons k e rest) = true) :
    good_key k = true ∧ wf_entry e = true ∧ wf_ns rest = true := by
  unfold wf_ns at h
  simp only [Bool.and_eq_true] at h
  exact ⟨h.1.1.1, h.1.1.2, h.2⟩

lemma wf_entry_sub (s : NS) (h : wf_entry (Entry.sub s) = true) :
    (∃ k2 e2 s2, s = NS.cons k2 e2 s2) ∧ wf_ns s = true := by
  unfold wf_entry at h
  simp only [Bool.and_eq_true] at h
  cases s with
  | nil => exact absurd h.1 (by simp [ns_is_nil])
  | cons k2 e2 s2 => exact ⟨⟨k2, e2, s2, rfl⟩, h.2⟩

lemma wf_entry_slist (items : List Scalar)
    (h : wf_entry (Entry.slist items) = true) :
    ∃ v0 vs, items = v0 :: vs := by
  unfold wf_entry at h
  simp only [Bool.and_eq_true] at h
  cases items with
  | nil => exact absurd h.1 (by simp)
  | cons v0 vs => exact ⟨v0, vs, rfl⟩

/-! ### Parser soundness on serializer output -/

theorem parse_entries_sound (ns : NS) (t : ℕ) (rest : List (List Char)) (fuel : ℕ)
    (hwf : wf_ns ns = true) (hstop : outer_rest t rest)
    (hfuel : ns_cost ns ≤ fuel) :
    parse_entries fuel t (summary_ns t ns ++ rest) = some (ns, rest) := by
  obtain ⟨f, rfl⟩ : ∃ f, fuel = f + 1 :=
    ⟨fuel - 1, by have := ns_cost_pos ns; omega⟩
  cases ns with
  | nil =>
    rw [show summary_ns t NS.nil ++ rest = rest from rfl]
    cases hrest : rest with
    | nil => exact parse_entries_nil f t
    | cons l tl =>
      obtain ⟨tp, hlt, hk⟩ := hstop l (by rw [hrest]; rfl)
      rw [parse_entries_cons, keyline_no_key t tp l hlt hk]
  | cons k e tail =>
    obtain ⟨hgk, hwe, hwtail⟩ := wf_ns_cons k e tail hwf
    have hgood_tail : ∀ k2 e2 t2, tail = NS.cons k2 e2 t2 → good_key k2 = true :=
      fun k2 e2 t2 h2 => (wf_ns_cons k2 e2 t2 (h2 ▸ hwtail)).1
    have hstop2 : outer_rest (t + 1) (summary_ns t tail ++ rest) :=
      block_outer t tail rest hgood_tail hstop
    cases e with
    | scalar v =>
      have hline : summary_ns t (NS.cons k (Entry.scalar v) tail) ++ rest =
          (spaces (2 * t) ++ (k.toList ++ ':' :: ' ' :: render_scalar v))
            :: (summary_ns t tail ++ rest) := rfl
      rw [hline, parse_entries_cons,
          parse_key_line_scalar t k (render_scalar v) hgk]
      dsimp only
      rw [parse_render_scalar v]
      dsimp only
      rw [parse_entries_sound tail t rest f hwtail hstop
          (by simp only [ns_cost, entry_cost] at hfuel; omega)]
    | slist items =>
      obtain ⟨v0, vs, hitems⟩ := wf_entry_slist items hwe
      have hline : summary_ns t (NS.cons k (Entry.slist items) tail) ++ rest =
          (spaces (2 * t) ++ (k.toList ++ [':'])) ::
            (items.map (item_line t) ++ (summary_ns t tail ++ rest)) := by
        rw [show summary_ns t (NS.cons k (Entry.slist items) tail) =
              ((spaces (2 * t) ++ (k.toList ++ [':'])) :: items.map (item_line t))
                ++ summary_ns t tail from rfl]
        simp [List.cons_append, List.append_assoc]
      rw [hline, parse_entries_cons, parse_key_line_header t k hgk]
      dsimp only
      have hno_item : ∀ l, (summary_ns t tail ++ rest).head? = some l →
          parse_item t l = none := by
        intro l hl
        obtain ⟨tp, _, hkl⟩ := hstop2 l hl
        exact keyline_no_item t tp l hkl
      have hhead : head_is_item t
          (items.map (item_line t) ++ (summary_ns t tail ++ rest)) = true := by
        rw [hitems]
        show head_is_item t (item_line t v0 :: _) = true
        unfold head_is_item
        dsimp only
        rw [parse_item_line t v0]
        rfl
      rw [if_pos hhead,
          parse_items_sound t items (summary_ns t tail ++ rest) hno_item]
      dsimp only
      rw [parse_entries_sound tail t rest f hwtail hstop
          (by simp only [ns_cost, entry_cost] at hfuel; omega)]
    | sub s =>
      obtain ⟨⟨k2, e2, s2, hs⟩, hwfs⟩ := wf_entry_sub s hwe
      have hline : summary_ns t (NS.cons k (Entry.sub s) tail) ++ rest =
          (spaces (2 * t) ++ (k.toList ++ [':'])) ::
            (summary_ns (t + 1) s ++ (summary_ns t tail ++ rest)) := by
        rw [show summary_ns t (NS.cons k (Entry.sub s) tail) =
              ((spaces (2 * t) ++ (k.toList ++ [':'])) :: summary_ns (t + 1) s)
                ++ summary_ns t tail from rfl]
        simp [List.cons_append, List.append_assoc]
      rw [hline, parse_entries_cons, parse_key_line_header t k hgk]
      dsimp only
      have hgk2 : good_key k2 = true := (wf_ns_cons k2 e2 s2 (hs ▸ hwfs)).1
      have hhead : head_is_item t
          (summary_ns (t + 1) s ++ (summary_ns t tail ++ rest)) = false := by
        rw [hs]
        obtain ⟨cs, tl, hsh⟩ := summary_ns_head (t + 1) k2 e2 s2
        rw [hsh]
        have hni := keyline_no_item t (t + 1)
          (spaces (2 * (t + 1)) ++ (k2.toList ++ ':' :: cs)) ⟨k2, cs, hgk2, rfl⟩
        rw [List.cons_append]
        unfold head_is_item
        dsimp only
        rw [hni]
        rfl
      rw [if_neg (by simp [hhead])]
      rw [parse_entries_sound s (t + 1) (summary_ns t tail ++ rest) f hwfs hstop2
          (by have h1 := ns_cost_pos tail
              simp only [ns_cost, entry_cost] at hfuel
              omega)]
      dsimp only
      rw [parse_entries_sound tail t rest f hwtail hstop
          (by have h1 := ns_cost_pos s
              simp only [ns_cost, entry_cost] at hfuel
              omega)]
termination_by sizeOf ns

/-- The fuel `namespace_load` provides (twice the line count plus one) covers
the parse budget of any namespace. -/
theorem ns_cost_le (ns : NS) : ∀ t : ℕ,
    ns_cost ns ≤ 2 * (summary_ns t ns).length + 1 := by
  intro t
  cases ns with
  | nil => simp [ns_cost, summary_ns]
  | cons k e tail =>
    have htail := ns_cost_le tail t
    cases e with
    | scalar v =>
      simp only [ns_cost, entry_cost, summary_ns, summary_entry,
        List.length_append, List.length_cons, List.length_nil]
      omega
    | slist items =>
      simp only [ns_cost, entry_cost, summary_ns, summary_entry,
        List.length_append, List.length_cons, List.length_map, List.length_nil]
      omega
    | sub s =>
      have hsub := ns_cost_le s (t + 1)
      simp only [ns_cost, entry_cost, summary_ns, summary_entry,
        List.length_append, List.length_cons, List.length_nil]
      omega
termination_by sizeOf ns

/-! ### `" None"` and newline freeness of emitted lines -/

lemma has_none_cons (c : Char) (l : List Char) :
    has_none_sub (c :: l) = ((c == ' ' && starts_none l) || has_none_sub l) := rfl

lemma starts_none_ne (c : Char) (l : List Char) (h : c ≠ 'N') :
    starts_none (c :: l) = false := by
  unfold starts_none
  rcases l with _ | ⟨c2, _ | ⟨c3, _ | ⟨c4, l4⟩⟩⟩ <;>
    simp [beq_iff_eq, h]

/-- Appending after a character outside `{N, o, n, e}` never creates a
`None` prefix that was not already there. -/
lemma starts_none_append_sep (xs cs : List Char) (c0 : Char)
    (hx : starts_none xs = false)
    (hc : c0 ≠ 'N' ∧ c0 ≠ 'o' ∧ c0 ≠ 'n' ∧ c0 ≠ 'e') :
    starts_none (xs ++ c0 :: cs) = false := by
  obtain ⟨h1, h2, h3, h4⟩ := hc
  rcases xs with _ | ⟨a, _ | ⟨b, _ | ⟨c, _ | ⟨d, tl⟩⟩⟩⟩
  · exact starts_none_ne c0 cs h1
  · show starts_none (a :: c0 :: cs) = false
    unfold starts_none
    rcases cs with _ | ⟨x, _ | ⟨y, tl⟩⟩ <;> simp [beq_iff_eq, h2]
  · show starts_none (a :: b :: c0 :: cs) = false
    unfold starts_none
    rcases cs with _ | ⟨x, tl⟩ <;> simp [beq_iff_eq, h3]
  · show starts_none (a :: b :: c :: c0 :: cs) = false
    unfold starts_none
    simp [beq_iff_eq, h4]
  · show starts_none (a :: b :: c :: d :: (tl ++ c0 :: cs)) = false
    unfold starts_none at hx ⊢
    exact hx

/-- Gluing two `" None"`-free pieces with a separator outside
`{space, N, o, n, e}` stays `" None"`-free. -/
lemma has_none_append_sep (x : List Char) (c0 : Char) (R : List Char)
    (hsp : c0 ≠ ' ')
    (hc : c0 ≠ 'N' ∧ c0 ≠ 'o' ∧ c0 ≠ 'n' ∧ c0 ≠ 'e') :
    has_none_sub x = false → has_none_sub R = false →
    has_none_sub (x ++ c0 :: R) = false := by
  induction x with
  | nil =>
    intro _ hR
    rw [List.nil_append, has_none_cons]
    simp [beq_iff_eq, hsp, hR]
  | cons d x' ih =>
    intro hx hR
    rw [has_none_cons] at hx
    simp only [Bool.or_eq_false_iff, Bool.and_eq_false_iff] at hx
    rw [List.cons_append, has_none_cons]
    simp only [Bool.or_eq_false_iff, Bool.and_eq_false_iff]
    constructor
    · rcases hx.1 with hd | hsn
      · exact Or.inl hd
      · exact Or.inr (starts_none_append_sep x' R c0 hsn hc)
    · exact ih hx.2 hR

/-- Prepending space-free characters does not affect `" None"` freeness. -/
lemma has_none_space_free (x : List Char) (y : List Char)
    (hx : ∀ c ∈ x, c ≠ ' ') :
    has_none_sub (x ++ y) = has_none_sub y := by
  induction x with
  | nil => rfl
  | cons d x' ih =>
    rw [List.cons_append, has_none_cons]
    have hd : (d == ' ') = false := by
      simp [beq_iff_eq]
      exact hx d (List.mem_cons_self d x')
    rw [hd]
    simp only [Bool.false_and, Bool.false_or]
    exact ih (fun c hc => hx c (List.mem_cons_of_mem d hc))

/-- Leading indent spaces keep a line `" None"`-free provided the body does
not itself begin with `None`. -/
lemma has_none_spaces (n : ℕ) (R : List Char)
    (hsn : starts_none R = false) (hR : has_none_sub R = false) :
    has_none_sub (spaces n ++ R) = false := by
  induction n with
  | zero => exact hR
  | succ n ih =>
    show has_none_sub (' ' :: (spaces n ++ R)) = false
    rw [has_none_cons]
    have hstart : starts_none (spaces n ++ R) = false := by
      cases n with
      | zero => exact hsn
      | succ n => exact starts_none_ne ' ' _ (by decide)
    simp [hstart, ih]

lemma good_str_facts (s : String) (h : good_str s = true) :
    (∀ c ∈ s.toList, c ≠ '"' ∧ c ≠ '\\' ∧ c ≠ '\n') ∧
    has_none_sub s.toList = false := by
  unfold good_str at h
  simp only [Bool.and_eq_true, List.all_eq_true, Bool.not_eq_true'] at h
  obtain ⟨h1, h2⟩ := h
  refine ⟨?_, h2⟩
  intro c hc
  have hcc := h1 c hc
  simp only [Bool.and_eq_true, decide_eq_true_eq] at hcc
  exact ⟨hcc.1.1, hcc.1.2, hcc.2⟩

lemma isDigit_ne (c : Char) (h : c.isDigit = true) :
    c ≠ ' ' ∧ c ≠ 'N' ∧ c ≠ '\n' := by
  refine ⟨?_, ?_, ?_⟩ <;> (rintro rfl; revert h; decide)

lemma int_repr_chars (n : ℤ) : ∀ c ∈ int_repr n, c.isDigit = true ∨ c = '-' := by
  unfold int_repr
  split
  · intro c hc
    rcases List.mem_cons.mp hc with hc | hc
    · exact Or.inr hc
    · exact Or.inl ((nat_repr_spec _).2.1 c hc)
  · intro c hc
    exact Or.inl ((nat_repr_spec _).2.1 c hc)

lemma render_clean (v : Scalar) (hv : wf_scalar v = true) :
    starts_none (render_scalar v) = false ∧
    has_none_sub (render_scalar v) = false ∧
    (∀ c ∈ render_scalar v, c ≠ '\n') := by
  cases v with
  | str s =>
    obtain ⟨hchars, hnone⟩ := good_str_facts s hv
    refine ⟨?_, ?_, ?_⟩
    · exact starts_none_ne '"' _ (by decide)
    · show has_none_sub ('"' :: (s.toList ++ ['"'])) = false
      rw [has_none_cons]
      have h1 : has_none_sub (s.toList ++ '"' :: []) = false :=
        has_none_append_sep s.toList '"' [] (by decide) (by decide) hnone rfl
      simp only [show (('"' : Char) == ' ') = false from rfl, Bool.false_and,
        Bool.false_or]
      exact h1
    · intro c hc
      rcases List.mem_cons.mp hc with hc | hc
      · rw [hc]; decide
      · rcases List.mem_append.mp hc with hc | hc
        · exact (hchars c hc).2.2
        · rw [List.mem_singleton.mp hc]; decide
  | int n =>
    have hch := int_repr_chars n
    have hspf : ∀ c ∈ int_repr n, c ≠ ' ' := by
      intro c hc
      rcases hch c hc with h | h
      · exact (isDigit_ne c h).1
      · rw [h]; decide
    refine ⟨?_, ?_, ?_⟩
    · obtain ⟨c, cs, hrep, hne⟩ := int_repr_head_not n 'N' (by decide) (by decide)
      show starts_none (int_repr n) = false
      rw [hrep]
      exact starts_none_ne c cs hne
    · have h1 := has_none_space_free (int_repr n) [] hspf
      show has_none_sub (render_scalar (Scalar.int n)) = false
      rw [show render_scalar (Scalar.int n) = int_repr n from rfl,
          show int_repr n = int_repr n ++ [] by simp, h1]
      rfl
    · intro c hc
      rcases hch c hc with h | h
      · exact (isDigit_ne c h).2.2
      · rw [h]; decide

lemma good_key_not_none (k : String) (h : good_key k = true) :
    starts_none k.toList = false := by
  unfold good_key at h
  cases hk : k.toList with
  | nil => rw [hk] at h; simp at h
  | cons c rest =>
    rw [hk] at h
    simp only [Bool.and_eq_true, Bool.not_eq_true'] at h
    exact h.1.2

/-! ### Per-line cleanliness -/

lemma spaces_no_newline (n : ℕ) (c : Char) (hc : c ∈ spaces n) : c ≠ '\n' := by
  rw [List.eq_of_mem_replicate hc]
  decide

lemma line_clean_scalar (t : ℕ) (k : String) (v : Scalar)
    (hk : good_key k = true) (hv : wf_scalar v = true) :
    has_none_sub (spaces (2 * t) ++ (k.toList ++ ':' :: ' ' :: render_scalar v)) = false ∧
    '\n' ∉ (spaces (2 * t) ++ (k.toList ++ ':' :: ' ' :: render_scalar v)) := by
  obtain ⟨hrs, hrh, hrn⟩ := render_clean v hv
  obtain ⟨_, hmem⟩ := good_key_facts k hk
  have hkey_spf : ∀ c ∈ k.toList, c ≠ ' ' := fun c hc => (hmem c hc).1
  have hval : has_none_sub (':' :: ' ' :: render_scalar v) = false := by
    rw [has_none_cons, has_none_cons]
    simp only [show ((':' : Char) == ' ') = false from rfl,
      show ((' ' : Char) == ' ') = true from rfl, Bool.false_and, Bool.false_or,
      Bool.true_and, hrs, hrh, Bool.or_false]
  constructor
  · refine has_none_spaces (2 * t) _ ?_ ?_
    · exact starts_none_append_sep k.toList (' ' :: render_scalar v) ':'
        (good_key_not_none k hk) (by decide)
    · rw [has_none_space_free k.toList _ hkey_spf]
      exact hval
  · intro hmem2
    rcases List.mem_append.mp hmem2 with hc | hc
    · exact spaces_no_newline _ '\n' hc rfl
    · rcases List.mem_append.mp hc with hc | hc
      · exact (hmem '\n' hc).2.2.2.2 rfl
      · rcases List.mem_cons.mp hc with hc | hc
        · exact absurd hc (by decide)
        · rcases List.mem_cons.mp hc with hc | hc
          · exact absurd hc (by decide)
          · exact hrn '\n' hc rfl

lemma line_clean_header (t : ℕ) (k : String) (hk : good_key k = true) :
    has_none_sub (spaces (2 * t) ++ (k.toList ++ [':'])) = false ∧
    '\n' ∉ (spaces (2 * t) ++ (k.toList ++ [':'])) := by
  obtain ⟨_, hmem⟩ := good_key_facts k hk
  have hkey_spf : ∀ c ∈ k.toList, c ≠ ' ' := fun c hc => (hmem c hc).1
  constructor
  · refine has_none_spaces (2 * t) _ ?_ ?_
    · exact starts_none_append_sep k.toList [] ':'
        (good_key_not_none k hk) (by decide)
    · rw [has_none_space_free k.toList _ hkey_spf]
      rfl
  · intro hmem2
    rcases List.mem_append.mp hmem2 with hc | hc
    · exact spaces_no_newline _ '\n' hc rfl
    · rcases List.mem_append.mp hc with hc | hc
      · exact (hmem '\n' hc).2.2.2.2 rfl
      · exact absurd (List.mem_singleton.mp hc) (by decide)

lemma line_clean_item (t : ℕ) (v : Scalar) (hv : wf_scalar v = true) :
    has_none_sub (item_line t v) = false ∧ '\n' ∉ item_line t v := by
  obtain ⟨hrs, hrh, hrn⟩ := render_clean v hv
  constructor
  · refine has_none_spaces (3 * t) _ ?_ ?_
    · exact starts_none_ne '-' _ (by decide)
    · rw [has_none_cons, has_none_cons]
      simp only [show (('-' : Char) == ' ') = false from rfl,
        show ((' ' : Char) == ' ') = true from rfl, Bool.false_and, Bool.false_or,
        Bool.true_and, hrs, hrh, Bool.or_false]
  · intro hmem2
    rcases List.mem_append.mp hmem2 with hc | hc
    · exact spaces_no_newline _ '\n' hc rfl
    · rcases List.mem_cons.mp hc with hc | hc
      · exact absurd hc (by decide)
      · rcases List.mem_cons.mp hc with hc | hc
        · exact absurd hc (by decide)
        · exact hrn '\n' hc rfl

/-- Every line of a well-formed namespace's summary contains neither
`" None"` nor a newline. -/
theorem summary_lines_clean (ns : NS) : ∀ t : ℕ, wf_ns ns = true →
    ∀ l ∈ summary_ns t ns, has_none_sub l = false ∧ '\n' ∉ l := by
  intro t hwf l hl
  cases ns with
  | nil => simp [summary_ns] at hl
  | cons k e tail =>
    obtain ⟨hgk, hwe, hwt⟩ := wf_ns_cons k e tail hwf
    rw [show summary_ns t (NS.cons k e tail)
        = summary_entry t k e ++ summary_ns t tail from rfl] at hl
    rcases List.mem_append.mp hl with hl | hl
    · cases e with
      | scalar v =>
        rw [List.mem_singleton.mp hl]
        exact line_clean_scalar t k v hgk hwe
      | slist items =>
        rcases List.mem_cons.mp hl with hl | hl
        · rw [hl]
          exact line_clean_header t k hgk
        · obtain ⟨v, hv, rfl⟩ := List.mem_map.mp hl
          have hall : items.all wf_scalar = true := by
            unfold wf_entry at hwe
            simp only [Bool.and_eq_true] at hwe
            exact hwe.2
          exact line_clean_item t v (List.all_eq_true.mp hall v hv)
      | sub s =>
        rcases List.mem_cons.mp hl with hl | hl
        · rw [hl]
          exact line_clean_header t k hgk
        · exact summary_lines_clean s (t + 1) (wf_entry_sub s hwe).2 l hl
    · exact summary_lines_clean tail t hwt l hl
termination_by sizeOf ns

/-! ### `save` does not disturb clean output -/

lemma replace_none_null_id (l : List Char) (h : has_none_sub l = false) :
    replace_none_null l = l := by
  induction l with
  | nil => rfl
  | cons c rest ih =>
    rw [has_none_cons] at h
    simp only [Bool.or_eq_false_iff] at h
    show (if c == ' ' && starts_none rest
          then ' ' :: 'N' :: 'u' :: 'l' :: 'l' :: replace_after_none rest
          else c :: replace_none_null rest) = c :: rest
    rw [if_neg (by rw [h.1]; exact Bool.false_ne_true), ih h.2]

lemma join_none_free (ls : List (List Char))
    (h : ∀ l ∈ ls, has_none_sub l = false) :
    has_none_sub (join_lines ls) = false := by
  induction ls with
  | nil => rfl
  | cons l ls' ih =>
    show has_none_sub (l ++ '\n' :: join_lines ls') = false
    exact has_none_append_sep l '\n' (join_lines ls') (by decide) (by decide)
      (h l (List.mem_cons_self l ls'))
      (ih (fun x hx => h x (List.mem_cons_of_mem l hx)))

lemma split_lines_append (l : List Char) (R : List Char) (hl : '\n' ∉ l) :
    split_lines (l ++ '\n' :: R) = l :: split_lines R := by
  induction l with
  | nil =>
    show split_lines ('\n' :: R) = [] :: split_lines R
    rfl
  | cons c l' ih =>
    have hc : c ≠ '\n' := fun h => hl (h ▸ List.mem_cons_self c l')
    show split_lines (c :: (l' ++ '\n' :: R)) = (c :: l') :: split_lines R
    have hred : split_lines (c :: (l' ++ '\n' :: R)) =
        match split_lines (l' ++ '\n' :: R) with
        | [] => [[c]]
        | l :: ls => (c :: l) :: ls := by
      show (if c = '\n' then [] :: split_lines (l' ++ '\n' :: R)
            else match split_lines (l' ++ '\n' :: R) with
                 | [] => [[c]]
                 | l :: ls => (c :: l) :: ls) = _
      rw [if_neg hc]
    rw [hred, ih (fun h => hl (List.mem_cons_of_mem c h))]

lemma split_join (ls : List (List Char)) (h : ∀ l ∈ ls, '\n' ∉ l) :
    split_lines (join_lines ls) = ls := by
  induction ls with
  | nil => rfl
  | cons l ls' ih =>
    show split_lines (l ++ '\n' :: join_lines ls') = l :: ls'
    rw [split_lines_append l (join_lines ls') (h l (List.mem_cons_self l ls')),
        ih (fun x hx => h x (List.mem_cons_of_mem l hx))]

/-! ### The round-trip claim -/

/-- **C10** (counterexample).  The claim quantifies over all namespaces of
strings/numbers/sequences, but `Namespace.save` post-processes the emitted
YAML with `.replace(" None", " Null")` (namespace.py line 94), so the string
value `"a None"` under key `"k"` reloads as `"a Null"`: the round trip does
not reproduce the scalar value. -/
theorem namespace_round_trip_cex :
    round_trip (NS.cons "k" (Entry.scalar (Scalar.str "a None")) NS.nil)
      = some (NS.cons "k" (Entry.scalar (Scalar.str "a Null")) NS.nil) ∧
    round_trip (NS.cons "k" (Entry.scalar (Scalar.str "a None")) NS.nil)
      ≠ some (NS.cons "k" (Entry.scalar (Scalar.str "a None")) NS.nil) := by
  decide

/-- **C10** (amended).  Saving a namespace to YAML and reloading it
reproduces it exactly — same key set in order and same scalar values at every
path — provided the namespace is well-formed: non-empty, identifier-like
distinct keys that are no YAML keywords and do not begin with `None`,
integer numbers, strings free of `"`/`\`/newline and of the substring
`" None"`, and non-empty sequences and sub-namespaces.  (The `" None"`
restriction is forced by `save`'s `.replace(" None", " Null")`; the rest
rules out inputs on which the emitted YAML itself is ambiguous.) -/
theorem namespace_round_trip (ns : NS) (h : wf_top ns = true) :
    round_trip ns = some ns := by
  have hwf : wf_ns ns = true := by
    unfold wf_top at h
    simp only [Bool.and_eq_true] at h
    exact h.2
  have hclean := summary_lines_clean ns 0 hwf
  have hsave : save_chars ns = join_lines (summary_ns 0 ns) := by
    unfold save_chars get_summary
    exact replace_none_null_id _
      (join_none_free _ (fun l hl => (hclean l hl).1))
  unfold round_trip namespace_load
  rw [hsave, split_join _ (fun l hl => (hclean l hl).2)]
  have hp := parse_entries_sound ns 0 [] (2 * (summary_ns 0 ns).length + 1) hwf
    (outer_rest_nil 0) (ns_cost_le ns 0)
  rw [List.append_nil] at hp
  rw [hp]

/-- Namespace used to instantiate the round-trip witness: two top-level
sections, nested maps, a string, positive and negative integers, and a
sequence mixing integers and strings. -/
def round_trip_witness_ns : NS :=
  NS.cons "project" (Entry.sub (
    NS.cons "name" (Entry.scalar (Scalar.str "deep lodocus")) (
    NS.cons "epochs" (Entry.scalar (Scalar.int 42)) (
    NS.cons "layers" (Entry.slist
      [Scalar.int 1, Scalar.int (-2), Scalar.str "relu"]) (
    NS.cons "model" (Entry.sub (
      NS.cons "depth" (Entry.scalar (Scalar.int 0)) NS.nil)) NS.nil))))) (
  NS.cons "batch" (Entry.scalar (Scalar.int (-7))) NS.nil)

/-- Witness for the amended C10 at a concrete namespace. -/
theorem namespace_round_trip_witness :
    round_trip round_trip_witness_ns = some round_trip_witness_ns :=
  namespace_round_trip round_trip_witness_ns (by decide)

end Deeplodocus
